import Mathlib

/-!
Shallow embedding of the benchix kernel core (x86_64 hobby kernel) and
proofs about it.  Each definition is translated from the corresponding
Rust source function; the source file and symbol are named in the doc
comment.  Machine integers are modelled as Nat with explicit reductions
modulo 2^64 where the source wraps; fallible code (and code that can
crash the kernel, e.g. an unwrap of an error or a slice index out of
range) returns Option, with Option.none standing for the crash.
-/

set_option maxRecDepth 100000

namespace Benchix

/-- Maximum value of a u64 (all 64 bits set). -/
def UMAX : Nat := 2 ^ 64 - 1

/-! ## Physical memory manager

Translated from src/kernel/src/memory.rs.  The bitmap is one u64 word
per 64 frames, 0 = free, 1 = used.  A frame is identified by its frame
number (physical address / 4096). -/

/-- Model of u64::trailing_ones, computed with explicit fuel (64 bits).
Counts the number of consecutive set bits starting from bit 0. -/
def trailing_ones : Nat → Nat → Nat
  | 0, _ => 0
  | fuel + 1, w => if w % 2 = 1 then trailing_ones fuel (w / 2) + 1 else 0

/-- PhysicalMemoryManager::set_frame: bitmap[addr / (4096*64)] |= 1 << (addr/4096) % 64,
with the frame number n = addr / 4096. -/
def set_frame (bitmap : List Nat) (n : Nat) : List Nat :=
  bitmap.set (n / 64) (bitmap.getD (n / 64) 0 ||| 2 ^ (n % 64))

/-- Index of the first word of the bitmap that is not u64::MAX, mirroring
the enumerate-scan in PhysicalMemoryManager::allocate_frame. -/
def first_nonfull : List Nat → Option Nat
  | [] => none
  | w :: rest => if w ≠ UMAX then some 0 else (first_nonfull rest).map (· + 1)

/-- PhysicalMemoryManager::allocate_frame (src/kernel/src/memory.rs lines
163-179): scan the words of the bitmap; at the first word that is not
u64::MAX, the returned frame is idx*64 + trailing_ones(word); the bit is
then marked used via set_frame.  Returns the frame number and the updated
bitmap, or none when every word is full. -/
def allocate_frame (bitmap : List Nat) : Option (Nat × List Nat) :=
  match first_nonfull bitmap with
  | none => none
  | some idx =>
    let frame := idx * 64 + trailing_ones 64 (bitmap.getD idx 0)
    some (frame, set_frame bitmap frame)

/-- Bit of the bitmap corresponding to frame n (true = used). -/
def bitmap_bit (bitmap : List Nat) (n : Nat) : Bool :=
  (bitmap.getD (n / 64) 0).testBit (n % 64)

/-! ### Facts about trailing_ones -/

theorem trailing_ones_lt (fuel : Nat) :
    ∀ w, w < 2 ^ fuel → w ≠ 2 ^ fuel - 1 → trailing_ones fuel w < fuel := by
  induction fuel with
  | zero =>
    intro w hw hne
    interval_cases w
    simp at hne
  | succ f ih =>
    intro w hw hne
    have hp : 2 ^ (f + 1) = 2 ^ f * 2 := pow_succ 2 f
    have h1 : (1:Nat) ≤ 2 ^ f := Nat.one_le_two_pow
    by_cases hodd : w % 2 = 1
    · have hdiv : w / 2 < 2 ^ f := by omega
      have hdne : w / 2 ≠ 2 ^ f - 1 := by
        intro h
        apply hne
        omega
      have := ih (w / 2) hdiv hdne
      simp only [trailing_ones, hodd, if_true]
      omega
    · simp only [trailing_ones, hodd, if_false]
      omega

theorem trailing_ones_testBit_false (fuel : Nat) :
    ∀ w, w < 2 ^ fuel → w ≠ 2 ^ fuel - 1 →
      w.testBit (trailing_ones fuel w) = false := by
  induction fuel with
  | zero =>
    intro w hw hne
    interval_cases w
    simp at hne
  | succ f ih =>
    intro w hw hne
    have hp : 2 ^ (f + 1) = 2 ^ f * 2 := pow_succ 2 f
    have h1 : (1:Nat) ≤ 2 ^ f := Nat.one_le_two_pow
    by_cases hodd : w % 2 = 1
    · have hdiv : w / 2 < 2 ^ f := by omega
      have hdne : w / 2 ≠ 2 ^ f - 1 := by
        intro h
        apply hne
        omega
      simp only [trailing_ones, hodd, if_true]
      rw [Nat.testBit_add_one]
      exact ih (w / 2) hdiv hdne
    · simp only [trailing_ones, hodd, if_false]
      rw [Nat.testBit_zero]
      simp [hodd]

theorem trailing_ones_testBit_true (fuel : Nat) :
    ∀ w j, j < trailing_ones fuel w → w.testBit j = true := by
  induction fuel with
  | zero => intro w j h; simp [trailing_ones] at h
  | succ f ih =>
    intro w j h
    by_cases hodd : w % 2 = 1
    · simp only [trailing_ones, hodd, if_true] at h
      match j with
      | 0 => simp [Nat.testBit_zero, hodd]
      | k + 1 =>
        rw [Nat.testBit_add_one]
        exact ih (w / 2) k (by omega)
    · simp [trailing_ones, hodd] at h

/-! ### List helper lemmas -/

theorem getD_set_self : ∀ (l : List Nat) (i v : Nat), i < l.length →
    (l.set i v).getD i 0 = v
  | [], i, v, h => by simp at h
  | a :: l, 0, v, _ => by simp
  | a :: l, i + 1, v, h => by
    simp only [List.set, List.getD_cons_succ]
    exact getD_set_self l i v (by simpa using h)

theorem getD_set_ne : ∀ (l : List Nat) (i j v : Nat), i ≠ j →
    (l.set i v).getD j 0 = l.getD j 0
  | [], _, _, _, _ => by simp
  | a :: l, 0, 0, v, h => by simp at h
  | a :: l, 0, j + 1, v, _ => by simp
  | a :: l, i + 1, 0, v, _ => by simp
  | a :: l, i + 1, j + 1, v, h => by
    simp only [List.set, List.getD_cons_succ]
    exact getD_set_ne l i j v (by omega)

theorem getD_mem : ∀ (l : List Nat) (i : Nat), i < l.length → l.getD i 0 ∈ l
  | [], _, h => by simp at h
  | a :: l, 0, _ => by simp
  | a :: l, i + 1, h => by
    simp only [List.getD_cons_succ]
    exact List.mem_cons_of_mem a (getD_mem l i (by simpa using h))

/-! ### Facts about first_nonfull -/

theorem first_nonfull_none :
    ∀ bitmap : List Nat, first_nonfull bitmap = none ↔ ∀ w ∈ bitmap, w = UMAX := by
  intro bitmap
  induction bitmap with
  | nil => simp [first_nonfull]
  | cons w rest ih =>
    by_cases h : w = UMAX
    · simp [first_nonfull, h, ih]
    · simp [first_nonfull, h]

theorem first_nonfull_some :
    ∀ (bitmap : List Nat) (idx : Nat), first_nonfull bitmap = some idx →
      idx < bitmap.length ∧ bitmap.getD idx 0 ≠ UMAX ∧
      ∀ j < idx, bitmap.getD j 0 = UMAX := by
  intro bitmap
  induction bitmap with
  | nil => intro idx h; simp [first_nonfull] at h
  | cons w rest ih =>
    intro idx h
    by_cases hw : w = UMAX
    · simp only [first_nonfull, hw, ne_eq, not_true_eq_false, if_false] at h
      match hidx : first_nonfull rest with
      | none => rw [hidx] at h; simp at h
      | some i =>
        rw [hidx] at h
        have h' : i + 1 = idx := by simpa using h
        obtain ⟨h1, h2, h3⟩ := ih i hidx
        refine ⟨?_, ?_, ?_⟩
        · simp only [← h', List.length_cons]; omega
        · simpa [← h'] using h2
        · intro j hj
          match j with
          | 0 => simpa using hw
          | k + 1 =>
            have hk : k < i := by omega
            simpa using h3 k hk
    · simp only [first_nonfull, hw, ne_eq, not_false_eq_true, if_true, Option.some.injEq] at h
      subst h
      exact ⟨by simp, by simpa using hw, by omega⟩

/-- Claim C6: allocate_frame returns none exactly when every bit of the
bitmap is set; otherwise it returns the frame given by the lowest clear
bit of the first non-full 64-bit word — a frame whose bit is currently
clear — and marks exactly that bit used. -/
theorem allocate_frame_spec (bitmap : List Nat)
    (hw : ∀ w ∈ bitmap, w < 2 ^ 64) :
    (allocate_frame bitmap = none ↔ ∀ w ∈ bitmap, w = UMAX) ∧
    (∀ frame bm', allocate_frame bitmap = some (frame, bm') →
      frame / 64 < bitmap.length ∧
      bitmap.getD (frame / 64) 0 ≠ UMAX ∧
      (∀ j < frame / 64, bitmap.getD j 0 = UMAX) ∧
      (∀ j < frame % 64, (bitmap.getD (frame / 64) 0).testBit j = true) ∧
      bitmap_bit bitmap frame = false ∧
      bitmap_bit bm' frame = true ∧
      (∀ m, m ≠ frame → bitmap_bit bm' m = bitmap_bit bitmap m)) := by
  constructor
  · rw [← first_nonfull_none bitmap]
    constructor
    · intro h
      unfold allocate_frame at h
      match hfn : first_nonfull bitmap with
      | none => rfl
      | some idx => rw [hfn] at h; simp at h
    · intro h
      unfold allocate_frame
      rw [h]
  · intro frame bm' h
    unfold allocate_frame at h
    match hfn : first_nonfull bitmap with
    | none => rw [hfn] at h; simp at h
    | some idx =>
      rw [hfn] at h
      simp only [Option.some.injEq, Prod.mk.injEq] at h
      obtain ⟨hframe, hbm⟩ := h
      obtain ⟨hlen, hne, hfull⟩ := first_nonfull_some bitmap idx hfn
      have hwlt : bitmap.getD idx 0 < 2 ^ 64 := hw _ (getD_mem bitmap idx hlen)
      have ht : trailing_ones 64 (bitmap.getD idx 0) < 64 :=
        trailing_ones_lt 64 _ hwlt hne
      subst hbm
      subst hframe
      have hdiv : (idx * 64 + trailing_ones 64 (bitmap.getD idx 0)) / 64 = idx := by
        omega
      have hmod : (idx * 64 + trailing_ones 64 (bitmap.getD idx 0)) % 64
          = trailing_ones 64 (bitmap.getD idx 0) := by
        omega
      refine ⟨by rwa [hdiv], by rwa [hdiv], ?_, ?_, ?_, ?_, ?_⟩
      · intro j hj; exact hfull j (by rwa [hdiv] at hj)
      · intro j hj
        rw [hdiv]
        exact trailing_ones_testBit_true 64 _ j (by rwa [hmod] at hj)
      · unfold bitmap_bit
        rw [hdiv, hmod]
        exact trailing_ones_testBit_false 64 _ hwlt hne
      · unfold bitmap_bit set_frame
        rw [hdiv, hmod, getD_set_self _ _ _ hlen]
        simp [Nat.testBit_or, Nat.testBit_two_pow_self]
      · intro m hm
        unfold bitmap_bit set_frame
        rw [hdiv, hmod]
        by_cases hmidx : m / 64 = idx
        · rw [hmidx, getD_set_self _ _ _ hlen]
          have hbitne : m % 64 ≠ trailing_ones 64 (bitmap.getD idx 0) := by
            intro hcontra
            apply hm
            have hm64 := Nat.div_add_mod m 64
            omega
          rw [Nat.testBit_or, Nat.testBit_two_pow_of_ne (Ne.symm hbitne)]
          simp
        · rw [getD_set_ne _ _ _ _ (fun hcontra => hmidx hcontra.symm)]

/-- Witness for allocate_frame_spec at the concrete bitmap [u64::MAX, 7]:
word 1 is the first non-full word, its lowest clear bit is bit 3, so
frame 67 is returned, previously clear and afterwards set. -/
theorem allocate_frame_spec_witness :
    bitmap_bit [UMAX, 7] 67 = false ∧
    bitmap_bit (set_frame [UMAX, 7] 67) 67 = true ∧
    bitmap_bit (set_frame [UMAX, 7] 67) 66 = bitmap_bit [UMAX, 7] 66 := by
  have h := (allocate_frame_spec [UMAX, 7] (by decide)).2 67 (set_frame [UMAX, 7] 67)
    (by decide)
  exact ⟨h.2.2.2.2.1, h.2.2.2.2.2.1, h.2.2.2.2.2.2 66 (by decide)⟩

/-! ## VFS data model

Translated from src/kernel/src/filesystem/vfs.rs.  Strings are modelled
as List Char.  The filesystem-private payload (a type-erased Any in the
source, downcast to either file contents or a directory-entry list) is
modelled as a sum. -/

inductive FilesystemError where
  | UnknownDevice
  | WrongType
  | NotFound
deriving DecidableEq, Repr

inductive FileType where
  | File
  | Directory
  | Device
deriving DecidableEq, Repr

structure DirectoryEntry where
  name : List Char
  inode : Nat
  dev : Nat
deriving DecidableEq, Repr

structure Inode where
  dev : Nat
  inode : Nat
  file_type : FileType
  size : Nat
  inner : Option (List Nat ⊕ List DirectoryEntry)
deriving DecidableEq, Repr

/-- Operations of one implementation of the Filesystem trait, as used by
the provided method traverse_fs (readdir and inode lookup) and by the
open syscall (open). -/
structure FSOps where
  readdir : Inode → Except FilesystemError (List DirectoryEntry)
  lookup_inode : Nat → Nat → Except FilesystemError Inode
  open_file : Inode → Except FilesystemError Unit

/-- Model of str::split on the character '/': splits the byte sequence,
keeping empty segments (an empty path yields one empty segment). -/
def split_path : List Char → List (List Char)
  | [] => [[]]
  | c :: rest =>
    if c = '/' then [] :: split_path rest
    else
      match split_path rest with
      | s :: ss => (c :: s) :: ss
      | [] => [[c]]

/-- One step of the fold in Filesystem::traverse_fs
(src/kernel/src/filesystem/vfs.rs lines 60-74): an empty segment returns
the accumulator unchanged; otherwise readdir the current inode, find the
entry whose name equals the segment (NotFound if absent), and look the
(dev, inode) pair up on the owning filesystem. -/
def traverse_step (fs : FSOps) (acc : Except FilesystemError Inode)
    (segment : List Char) : Except FilesystemError Inode :=
  if segment = [] then acc
  else
    match acc with
    | .error e => .error e
    | .ok ino =>
      match fs.readdir ino with
      | .error e => .error e
      | .ok entries =>
        match entries.find? (fun d => d.name = segment) with
        | none => .error .NotFound
        | some d => fs.lookup_inode d.dev d.inode

/-- Filesystem::traverse_fs: fold traverse_step over the '/'-separated
segments of the path, starting from the given root inode. -/
def traverse_fs (fs : FSOps) (root : Inode) (path : List Char) :
    Except FilesystemError Inode :=
  (split_path path).foldl (traverse_step fs) (Except.ok root)

theorem traverse_step_empty (fs : FSOps) (acc : Except FilesystemError Inode) :
    traverse_step fs acc [] = acc := by
  simp [traverse_step]

theorem traverse_step_error (fs : FSOps) (e : FilesystemError) (s : List Char) :
    traverse_step fs (.error e) s = .error e := by
  unfold traverse_step
  split
  · rfl
  · rfl

theorem foldl_traverse_filter (fs : FSOps) :
    ∀ (segs : List (List Char)) (acc : Except FilesystemError Inode),
      segs.foldl (traverse_step fs) acc
        = (segs.filter (fun s => !(s = [] : Bool))).foldl (traverse_step fs) acc := by
  intro segs
  induction segs with
  | nil => intro acc; rfl
  | cons s ss ih =>
    intro acc
    by_cases hs : s = []
    · subst hs
      simp only [List.foldl_cons, List.filter_cons]
      rw [traverse_step_empty]
      simpa using ih acc
    · simp only [List.foldl_cons, List.filter_cons]
      have : (!(s = [] : Bool)) = true := by simpa using hs
      rw [this]
      simpa using ih (traverse_step fs acc s)

theorem split_path_slash (p : List Char) :
    split_path ('/' :: p) = [] :: split_path p := by
  simp [split_path]

theorem split_path_no_slash :
    ∀ (a : List Char), '/' ∉ a → split_path a = [a] := by
  intro a
  induction a with
  | nil => intro _; rfl
  | cons c a' ih =>
    intro h
    have hc : ¬ c = '/' := fun hc => h (by simp [hc])
    have ha' : '/' ∉ a' := fun hmem => h (List.mem_cons_of_mem c hmem)
    simp only [split_path, hc, if_false]
    rw [ih ha']

theorem split_path_append (rest : List Char) :
    ∀ (a : List Char), '/' ∉ a →
      split_path (a ++ '/' :: rest) = a :: split_path rest := by
  intro a
  induction a with
  | nil => intro _; simp [split_path]
  | cons c a' ih =>
    intro h
    have hc : ¬ c = '/' := fun hc => h (by simp [hc])
    have ha' : '/' ∉ a' := fun hmem => h (List.mem_cons_of_mem c hmem)
    simp only [List.cons_append, split_path, hc, if_false]
    simp only [List.append_eq]
    rw [ih ha']

/-- Claim C9: path traversal splits on '/' and skips empty segments, so
traverse(root, "/a/b") equals traverse at the inode found by looking up
component a in root, continued with component b; a leading '/' changes
nothing; and any two paths with the same nonempty segments traverse
identically. -/
theorem traverse_fs_path_algebra (fs : FSOps) (root : Inode)
    (a b p q : List Char) (ha : '/' ∉ a) (hb : '/' ∉ b)
    (hpq : (split_path p).filter (fun s => !(s = [] : Bool))
         = (split_path q).filter (fun s => !(s = [] : Bool))) :
    traverse_fs fs root (('/' :: a) ++ '/' :: b)
      = (traverse_step fs (Except.ok root) a).bind (fun i => traverse_fs fs i b) ∧
    traverse_fs fs root ('/' :: p) = traverse_fs fs root p ∧
    traverse_fs fs root p = traverse_fs fs root q := by
  refine ⟨?_, ?_, ?_⟩
  · unfold traverse_fs
    have hsplit : split_path (('/' :: a) ++ '/' :: b) = [] :: a :: split_path b := by
      rw [List.cons_append, split_path_slash, split_path_append b a ha]
    rw [hsplit, split_path_no_slash b hb]
    simp only [List.foldl_cons, List.foldl_nil]
    rw [traverse_step_empty]
    cases hstep : traverse_step fs (Except.ok root) a with
    | error e =>
      rw [traverse_step_error]
      rfl
    | ok i =>
      rfl
  · unfold traverse_fs
    rw [split_path_slash]
    simp only [List.foldl_cons]
    rw [traverse_step_empty]
  · unfold traverse_fs
    rw [foldl_traverse_filter fs (split_path p), hpq, ← foldl_traverse_filter fs (split_path q)]

/-- Two-level filesystem used as a concrete witness: the root directory
(inode 0) lists an entry a (inode 1), and inode 1 lists an entry b
(inode 2). -/
def rootW : Inode :=
  { dev := 1, inode := 0, file_type := .Directory, size := 0, inner := none }

def fsW : FSOps where
  readdir := fun i =>
    if i.inode = 0 then .ok [{ name := ['a'], inode := 1, dev := 1 }]
    else if i.inode = 1 then .ok [{ name := ['b'], inode := 2, dev := 1 }]
    else .error .WrongType
  lookup_inode := fun d n =>
    .ok { dev := d, inode := n, file_type := .Directory, size := 0, inner := none }
  open_file := fun _ => .ok ()

/-- Witness for traverse_fs_path_algebra: the decomposition holds at the
concrete path /a/b, and //a///b traverses the same as /a/b. -/
theorem traverse_fs_path_algebra_witness :
    traverse_fs fsW rootW ['/', 'a', '/', 'b']
      = (traverse_step fsW (Except.ok rootW) ['a']).bind
          (fun i => traverse_fs fsW i ['b']) ∧
    traverse_fs fsW rootW ['/', '/', 'a', '/', '/', '/', 'b']
      = traverse_fs fsW rootW ['/', 'a', '/', 'b'] := by
  have h := traverse_fs_path_algebra fsW rootW ['a'] ['b']
    ['/', 'a', '/', '/', '/', 'b'] ['/', 'a', '/', 'b']
    (by decide) (by decide) (by decide)
  refine ⟨h.1, ?_⟩
  rw [h.2.1, h.2.2]

/-! ## Ramdisk

Translated from src/kernel/src/filesystem/ramdisk.rs.  File contents are
byte lists; the inner payload of a file inode is Sum.inl of its contents
and the inner payload of the root directory is Sum.inr of its entries. -/

/-- Directory entries the Ramdisk root lists, one per file, inode numbers
starting at 1 (Ramdisk::from_files). -/
def ramdisk_dirents (dev : Nat) (files : List (List Char × List Nat)) :
    List DirectoryEntry :=
  (List.range files.length).map (fun index =>
    { dev := dev, inode := index + 1, name := (files.getD index ([], [])).1 })

/-- Ramdisk::from_files: the inode table of a ramdisk built from a list of
(filename, contents) pairs.  Inode 0 is the root directory; inode i+1 is
file i with size = contents length and the contents as payload. -/
def ramdisk_inodes (dev : Nat) (files : List (List Char × List Nat)) :
    Nat → Option Inode :=
  fun n =>
    if n = 0 then
      some { dev := dev, inode := 0, file_type := .Directory, size := 0,
             inner := some (.inr (ramdisk_dirents dev files)) }
    else
      match files.get? (n - 1) with
      | none => none
      | some f =>
        some { dev := dev, inode := n, file_type := .File, size := f.2.length,
               inner := some (.inl f.2) }

/-- Ramdisk::read (src/kernel/src/filesystem/ramdisk.rs lines 118-138).
Wrong file type or wrong device yields WrongType, as does a payload that
is not file contents; otherwise the source slices
contents[offset .. min (offset+buf.len) inode.size], which crashes
(Option.none) when the start exceeds the end or the end exceeds the
contents length, and otherwise returns the sliced bytes and their count. -/
def ramdisk_read (dev : Nat) (ino : Inode) (offset buf_len : Nat) :
    Option (Except FilesystemError (List Nat × Nat)) :=
  if ino.file_type ≠ FileType.File ∨ ino.dev ≠ dev then
    some (.error .WrongType)
  else
    match ino.inner with
    | none => some (.error .WrongType)
    | some (.inr _) => some (.error .WrongType)
    | some (.inl contents) =>
      if offset ≤ min (offset + buf_len) ino.size ∧
          min (offset + buf_len) ino.size ≤ contents.length then
        some (.ok ((contents.drop offset).take (min (offset + buf_len) ino.size - offset),
                   min (offset + buf_len) ino.size - offset))
      else none

/-- Ramdisk::write (lines 140-147): unconditionally Err(WrongType). -/
def ramdisk_write (_dev : Nat) (_ino : Inode) (_offset : Nat)
    (_buf : List Nat) : Except FilesystemError Nat :=
  .error .WrongType

/-- Claim C8 (amended): for every file inode of a ramdisk and every
offset that does not exceed the file size, read returns exactly
min(buf.len, size-offset) bytes copied from the contents starting at
offset; reads with offset beyond the file size crash instead of
returning; and every write fails with WrongType. -/
theorem ramdisk_read_write_spec (dev : Nat)
    (files : List (List Char × List Nat)) (i : Nat) (f : List Char × List Nat)
    (ino : Inode) (offset buf_len : Nat)
    (hf : files.get? i = some f)
    (hino : ramdisk_inodes dev files (i + 1) = some ino)
    (hoff : offset ≤ f.2.length) :
    ramdisk_read dev ino offset buf_len
      = some (.ok ((f.2.drop offset).take (min buf_len (f.2.length - offset)),
                   min buf_len (f.2.length - offset))) ∧
    (∀ off' : Nat, f.2.length < off' → 0 < buf_len →
      ramdisk_read dev ino off' buf_len = none) ∧
    (∀ off' buf', ramdisk_write dev ino off' buf' = .error .WrongType) := by
  unfold ramdisk_inodes at hino
  rw [if_neg (by omega : ¬ (i + 1 = 0)), Nat.add_sub_cancel, hf] at hino
  dsimp only at hino
  have hino' := Option.some.inj hino
  subst hino'
  refine ⟨?_, ?_, ?_⟩
  · unfold ramdisk_read
    dsimp only
    rw [if_neg (by simp : ¬ (FileType.File ≠ FileType.File ∨ dev ≠ dev))]
    have hcond : offset ≤ min (offset + buf_len) f.2.length ∧
        min (offset + buf_len) f.2.length ≤ f.2.length := by omega
    rw [if_pos hcond]
    have hlen : min (offset + buf_len) f.2.length - offset
        = min buf_len (f.2.length - offset) := by omega
    rw [hlen]
  · intro off' hoff' hbuf
    unfold ramdisk_read
    dsimp only
    rw [if_neg (by simp : ¬ (FileType.File ≠ FileType.File ∨ dev ≠ dev))]
    have hcond : ¬ (off' ≤ min (off' + buf_len) f.2.length ∧
        min (off' + buf_len) f.2.length ≤ f.2.length) := by omega
    rw [if_neg hcond]
  · intro off' buf'
    rfl

/-- File inode of a one-file ramdisk on device 2 with contents
[10, 20, 30], used by the witness and the counterexample below. -/
def inoW : Inode :=
  { dev := 2, inode := 1, file_type := .File, size := 3,
    inner := some (.inl [10, 20, 30]) }

/-- Witness for ramdisk_read_write_spec: reading 2 bytes from offset 1 of
the 3-byte file returns [20, 30]. -/
theorem ramdisk_read_write_spec_witness :
    ramdisk_read 2 inoW 1 2 = some (.ok ([20, 30], 2)) ∧
    ramdisk_write 2 inoW 0 [7] = .error .WrongType := by
  have h := ramdisk_read_write_spec 2 [(['a'], [10, 20, 30])] 0
    (['a'], [10, 20, 30]) inoW 1 2 (by decide) (by decide) (by decide)
  exact ⟨h.1, h.2.2 0 [7]⟩

/-- Claim C8 counterexample: reading the same file at offset 4, past the
end of the 3-byte file.  The slice bounds check fails and the source
crashes (none) instead of returning a byte count, so the claim as stated,
which quantifies over every offset, is false. -/
theorem ramdisk_read_offset_past_end :
    ramdisk_inodes 2 [(['a'], [10, 20, 30])] 1 = some inoW ∧
    ramdisk_read 2 inoW 4 1 = none ∧
    (ramdisk_read 2 inoW 4 1).isSome = false := by
  exact ⟨by decide, rfl, rfl⟩

/-! ## Syscall layer

Translated from src/kernel/src/user/syscalls/mod.rs and
src/kernel/src/user/syscalls/execve.rs.  Return values are u64 encoded as
Nat; the negative errno -e is the two's complement value 2^64 - e.
A syscall that crashes the kernel (a failed assert or an unwrap of an
error) is modelled as Option.none. -/

/-- Errno constants from src/kernel/src/user/constants.rs. -/
def ENOENT : Nat := 2
def EBADF : Nat := 9
def EFAULT : Nat := 14
def EINVAL : Nat := 22
def O_RDONLY : Nat := 0
def O_WRONLY : Nat := 1
def O_RDWR : Nat := 2
def O_ACCMODE : Nat := 3
def ARCH_SET_FS : Nat := 0x1002

/-- Encoding of the negative errno -e in a u64 register. -/
def neg_errno (e : Nat) : Nat := 2 ^ 64 - e

/-- check_addr (syscalls/mod.rs lines 71-75): true iff bit 63 (the sign
bit) of the address is clear, i.e. the address is in the lower half. -/
def check_addr (addr : Nat) : Bool := !(addr.testBit 63)

/-- check_buffer (syscalls/mod.rs lines 77-83): checks both the start of
the buffer and the one-past-the-end address ptr+len (pointer arithmetic
wraps modulo 2^64). -/
def check_buffer (ptr len : Nat) : Bool :=
  check_addr ptr && check_addr ((ptr + len) % 2 ^ 64)

/-- VirtAddr::new of the x86_64 crate accepts only canonical addresses
(bits 47..63 all clear or all set) and panics otherwise; brk and
arch_prctl construct a VirtAddr from a raw user-supplied u64. -/
def canonical (a : Nat) : Bool :=
  decide (a < 2 ^ 47) || (decide (2 ^ 64 - 2 ^ 47 ≤ a) && decide (a < 2 ^ 64))

/-- FileDescriptor (src/kernel/src/user/mod.rs lines 77-81). -/
structure FileDescriptor where
  inode : Inode
  offset : Nat
  flags : Nat
deriving DecidableEq, Repr

/-- Functional update of a file-descriptor table at one descriptor. -/
def fd_update (files : Nat → Option FileDescriptor) (fd : Nat)
    (f : FileDescriptor) : Nat → Option FileDescriptor :=
  fun x => if x = fd then some f else files x

/-- read (syscalls/mod.rs lines 85-114): validate the buffer (-EFAULT),
look up the descriptor (-EBADF), require read access (-EBADF), forward to
the VFS (the result is unwrapped, so a filesystem error crashes), advance
the offset by the byte count the filesystem reported, return that count.
The VFS read is abstracted as the function argument vfs_read, applied to
the descriptor inode, its offset and the requested count. -/
def read_syscall (files : Nat → Option FileDescriptor)
    (vfs_read : Inode → Nat → Nat → Except FilesystemError Nat)
    (fd ptr count : Nat) : Option (Nat × (Nat → Option FileDescriptor)) :=
  if !(check_buffer ptr count) then some (neg_errno EFAULT, files)
  else
    match files fd with
    | none => some (neg_errno EBADF, files)
    | some f =>
      if !(f.flags &&& O_ACCMODE = O_RDWR ∨ f.flags &&& O_ACCMODE = O_RDONLY : Bool)
      then some (neg_errno EBADF, files)
      else
        match vfs_read f.inode f.offset count with
        | .error _ => none
        | .ok n =>
          some (n, fd_update files fd { f with offset := (f.offset + n) % 2 ^ 64 })

/-- write (syscalls/mod.rs lines 116-148): mirror of read with write
access required, except that the byte count the filesystem reports is
discarded; the offset advances by the requested count and the requested
count is returned. -/
def write_syscall (files : Nat → Option FileDescriptor)
    (vfs_write : Inode → Nat → Nat → Except FilesystemError Nat)
    (fd ptr count : Nat) : Option (Nat × (Nat → Option FileDescriptor)) :=
  if !(check_buffer ptr count) then some (neg_errno EFAULT, files)
  else
    match files fd with
    | none => some (neg_errno EBADF, files)
    | some f =>
      if !(f.flags &&& O_ACCMODE = O_RDWR ∨ f.flags &&& O_ACCMODE = O_WRONLY : Bool)
      then some (neg_errno EBADF, files)
      else
        match vfs_write f.inode f.offset count with
        | .error _ => none
        | .ok _ =>
          some (count, fd_update files fd { f with offset := (f.offset + count) % 2 ^ 64 })

/-- open (syscalls/mod.rs lines 150-177): the pathname (read from the
user pointer; the parameter path is the string it points at) is checked
with assert!(check_buffer(..)), so a bad pointer crashes instead of
returning -EFAULT.  traverse_fs and the filesystem open are both
unwrapped, so their errors also crash.  On success the inode is installed
at next_fd with offset 0 and the fd is returned along with the updated
table and counter. -/
def open_syscall (fs : FSOps) (root : Inode)
    (files : Nat → Option FileDescriptor) (next_fd : Nat)
    (ptr : Nat) (path : List Char) (flags : Nat) :
    Option (Nat × (Nat → Option FileDescriptor) × Nat) :=
  if !(check_buffer ptr path.length) then none
  else
    match traverse_fs fs root path with
    | .error _ => none
    | .ok ino =>
      match fs.open_file ino with
      | .error _ => none
      | .ok _ =>
        some (next_fd,
              fd_update files next_fd { inode := ino, offset := 0, flags := flags },
              next_fd + 1)

/-- arch_prctl (syscalls/mod.rs lines 191-205): for ARCH_SET_FS the raw
address is first turned into a VirtAddr (crashing on a non-canonical
value), then check_addr failure returns -EFAULT, otherwise the FS base is
written and 0 returned; any other operation returns -EINVAL. -/
def arch_prctl (op addr : Nat) : Option Nat :=
  if op = ARCH_SET_FS then
    if !(canonical addr) then none
    else if !(check_addr addr) then some (neg_errno EFAULT)
    else some 0
  else some (neg_errno EINVAL)

/-- Outcome of execve's filename handling: the wrapper returns the value
v to userspace, or validation passed and execve proceeds to load the
binary. -/
inductive ExecveCheck where
  | ret (v : Nat)
  | proceeds
deriving DecidableEq, Repr

/-- Filename validation of execve (execve.rs lines 21-27) combined with
the execve wrapper (syscalls/mod.rs lines 207-211).  After the null
check, CStr::from_ptr dereferences the filename pointer BEFORE
check_buffer runs; deref is the outcome of that raw read: none when the
access faults (a non-canonical or unmapped address crashes the kernel),
some len when a NUL terminator is found after len bytes (for a mapped
kernel-half pointer this reads kernel memory).  Only after a successful
read does check_buffer reject the pointer, making execve_inner return
Err(ExecveError), which the wrapper turns into u64::MAX = 2^64-1. -/
def execve_reject (deref : Option Nat) (ptr : Nat) : Option ExecveCheck :=
  if ptr = 0 then some (.ret (2 ^ 64 - 1))
  else
    match deref with
    | none => none
    | some len =>
      if !(check_buffer ptr len) then some (.ret (2 ^ 64 - 1))
      else some .proceeds

theorem check_buffer_false_iff (p l : Nat) :
    check_buffer p l = false ↔
      (p.testBit 63 = true ∨ ((p + l) % 2 ^ 64).testBit 63 = true) := by
  unfold check_buffer check_addr
  cases hp : p.testBit 63 <;> cases hq : ((p + l) % 2 ^ 64).testBit 63 <;> simp

/-- Claim C3 counterexample: with a pathname pointer whose bit 63 is set,
open crashes on its assert instead of returning; execve with the
non-canonical filename pointer 2^63 faults in CStr::from_ptr before any
validation (the dereference at execve.rs:24 precedes check_buffer), and
with a mapped canonical kernel-half pointer it returns u64::MAX (the
encoding of -1), which differs from -EFAULT (2^64 - 14).  So not every
pointer-taking syscall returns -EFAULT. -/
theorem pointer_validation_counterexample :
    open_syscall fsW rootW (fun _ => none) 0 (2 ^ 63) ['a'] 0 = none ∧
    execve_reject none (2 ^ 63) = none ∧
    execve_reject (some 1) (2 ^ 64 - 2 ^ 47) = some (.ret (2 ^ 64 - 1)) ∧
    ((2 ^ 64 - 1 : Nat) == neg_errno EFAULT) = false := by
  exact ⟨rfl, rfl, rfl, by decide⟩

/-- Claim C3 (amended): read and write return -EFAULT exactly when
check_buffer fails, i.e. when either endpoint of [ptr, ptr+len] (mod
2^64) has bit 63 set — including a base in the user half whose end
crosses into the kernel half; open crashes on its assert instead of
returning -EFAULT whenever its pathname buffer fails the same check;
arch_prctl(ARCH_SET_FS) returns -EFAULT for a canonical address with bit
63 set and crashes for a non-canonical one; execve dereferences the
filename pointer before validating it, so a faulting dereference crashes
the kernel and a successful read of a bad pointer is rejected with
u64::MAX, never -EFAULT; and a zero-length buffer whose base has bit 63
clear passes validation. -/
theorem pointer_validation_spec (files : Nat → Option FileDescriptor)
    (vfsR vfsW : Inode → Nat → Nat → Except FilesystemError Nat)
    (fs : FSOps) (root : Inode) (fd nfd ptr len flags : Nat) (path : List Char)
    (hbuf : check_buffer ptr len = false) :
    read_syscall files vfsR fd ptr len = some (neg_errno EFAULT, files) ∧
    write_syscall files vfsW fd ptr len = some (neg_errno EFAULT, files) ∧
    (check_buffer ptr path.length = false →
      open_syscall fs root files nfd ptr path flags = none) ∧
    (ptr.testBit 63 = true → canonical ptr = true →
      arch_prctl ARCH_SET_FS ptr = some (neg_errno EFAULT)) ∧
    (canonical ptr = false → arch_prctl ARCH_SET_FS ptr = none) ∧
    (ptr ≠ 0 → execve_reject none ptr = none) ∧
    (ptr ≠ 0 → execve_reject (some len) ptr = some (.ret (2 ^ 64 - 1))) ∧
    (∀ p : Nat, p < 2 ^ 64 → p.testBit 63 = false → check_buffer p 0 = true) := by
  refine ⟨?_, ?_, ?_, ?_, ?_, ?_, ?_, ?_⟩
  · unfold read_syscall
    rw [hbuf]
    rfl
  · unfold write_syscall
    rw [hbuf]
    rfl
  · intro hpath
    unfold open_syscall
    rw [hpath]
    rfl
  · intro h63 hc
    have hca : check_addr ptr = false := by simp [check_addr, h63]
    unfold arch_prctl
    rw [if_pos rfl, hc, hca]
    rfl
  · intro hc
    unfold arch_prctl
    rw [if_pos rfl, hc]
    rfl
  · intro hne
    unfold execve_reject
    rw [if_neg hne]
  · intro hne
    unfold execve_reject
    rw [if_neg hne]
    show (if !(check_buffer ptr len) then some (ExecveCheck.ret (2 ^ 64 - 1))
          else some .proceeds) = some (.ret (2 ^ 64 - 1))
    rw [hbuf]
    rfl
  · intro p hlt hbit
    have hmod : (p + 0) % 2 ^ 64 = p := by omega
    unfold check_buffer check_addr
    rw [hmod, hbit]
    rfl

/-- Witness for pointer_validation_spec at the user-half base 2^63 - 4
with length 8: the base has bit 63 clear but the end 2^63 + 4 has bit 63
set — the either-endpoint case, a buffer crossing from the user half
into the kernel half.  read and write return -EFAULT, open crashes on a
5-character pathname from the same base, execve crashes when the
dereference of the pointer faults and returns u64::MAX when it reads
through, and a read of zero bytes at the valid base 4096 passes
validation. -/
theorem pointer_validation_spec_witness :
    read_syscall (fun _ => none) (fun _ _ _ => .ok 0) 0 (2 ^ 63 - 4) 8
      = some (neg_errno EFAULT, (fun _ => none)) ∧
    write_syscall (fun _ => none) (fun _ _ _ => .ok 0) 0 (2 ^ 63 - 4) 8
      = some (neg_errno EFAULT, (fun _ => none)) ∧
    open_syscall fsW rootW (fun _ => none) 0 (2 ^ 63 - 4) ['a', 'b', 'c', 'd', 'e'] 0
      = none ∧
    execve_reject none (2 ^ 63 - 4) = none ∧
    execve_reject (some 8) (2 ^ 63 - 4) = some (.ret (2 ^ 64 - 1)) ∧
    check_buffer 4096 0 = true := by
  have h := pointer_validation_spec (fun _ => none) (fun _ _ _ => .ok 0)
    (fun _ _ _ => .ok 0) fsW rootW 0 0 (2 ^ 63 - 4) 8 0
    ['a', 'b', 'c', 'd', 'e'] (by decide)
  exact ⟨h.1, h.2.1, h.2.2.1 (by decide), h.2.2.2.2.2.1 (by decide),
         h.2.2.2.2.2.2.1 (by decide), h.2.2.2.2.2.2.2 4096 (by decide) (by decide)⟩

/-- Claim C10: a write that passes validation on an open descriptor with
write access, whose filesystem write succeeds with any reported count n,
returns the requested count and advances exactly that descriptor's offset
by the requested count, independently of n. -/
theorem write_advances_offset (files : Nat → Option FileDescriptor)
    (vfs_write : Inode → Nat → Nat → Except FilesystemError Nat)
    (fd ptr count n : Nat) (f : FileDescriptor)
    (hbuf : check_buffer ptr count = true)
    (hfd : files fd = some f)
    (hmode : f.flags &&& O_ACCMODE = O_RDWR ∨ f.flags &&& O_ACCMODE = O_WRONLY)
    (hvfs : vfs_write f.inode f.offset count = .ok n) :
    write_syscall files vfs_write fd ptr count
      = some (count, fd_update files fd { f with offset := (f.offset + count) % 2 ^ 64 }) := by
  unfold write_syscall
  rw [hbuf, hfd]
  simp only [Bool.not_true, Bool.false_eq_true, if_false]
  rw [show (f.flags &&& O_ACCMODE = O_RDWR ∨ f.flags &&& O_ACCMODE = O_WRONLY : Bool)
      = true from decide_eq_true hmode]
  simp only [Bool.not_true, Bool.false_eq_true, if_false]
  rw [hvfs]

/-- Descriptor table with one write-only descriptor at fd 3, used by the
write witness. -/
def filesB : Nat → Option FileDescriptor :=
  fun x => if x = 3 then some { inode := inoW, offset := 5, flags := 1 } else none

/-- Witness for write_advances_offset: descriptor 3 at offset 5 with
O_WRONLY; the filesystem reports 1 byte written but the syscall returns
the requested count 100 and the offset advances to 105. -/
theorem write_advances_offset_witness :
    write_syscall filesB (fun _ _ _ => .ok 1) 3 4096 100
      = some (100, fd_update filesB 3 { inode := inoW, offset := 105, flags := 1 }) := by
  have h := write_advances_offset filesB (fun _ _ _ => .ok 1) 3 4096 100 1
    { inode := inoW, offset := 5, flags := 1 }
    (by decide) (by rfl) (by decide) (by rfl)
  have hmod : (5 + 100) % 2 ^ 64 = 105 := by decide
  rw [h, hmod]

/-- Claim C5 counterexample: opening a path that names no existing file.
traverse_fs returns NotFound, open unwraps it and the kernel crashes;
the syscall does not return -ENOENT (or anything at all). -/
theorem open_missing_file_counterexample :
    traverse_fs fsW rootW ['/', 'z'] = .error .NotFound ∧
    open_syscall fsW rootW (fun _ => none) 0 4096 ['/', 'z'] 0 = none ∧
    (open_syscall fsW rootW (fun _ => none) 0 4096 ['/', 'z'] 0).isSome = false := by
  exact ⟨rfl, rfl, rfl⟩

/-- Claim C5 (amended): a filesystem error from path traversal is not
mapped to an errno; the open syscall unwraps it, crashing the kernel, for
every error traverse_fs can produce, NotFound included. -/
theorem open_unwraps_traverse_error (fs : FSOps) (root : Inode)
    (files : Nat → Option FileDescriptor) (next_fd ptr flags : Nat)
    (path : List Char) (e : FilesystemError)
    (hbuf : check_buffer ptr path.length = true)
    (htrav : traverse_fs fs root path = .error e) :
    open_syscall fs root files next_fd ptr path flags = none := by
  unfold open_syscall
  rw [hbuf, htrav]
  rfl

/-- Witness for open_unwraps_traverse_error at the missing path /q on the
concrete two-level filesystem. -/
theorem open_unwraps_traverse_error_witness :
    open_syscall fsW rootW (fun _ => none) 0 4096 ['/', 'q'] 0 = none :=
  open_unwraps_traverse_error fsW rootW (fun _ => none) 0 4096 0 ['/', 'q']
    .NotFound (by decide) (by rfl)

/-! ## Program break (brk)

Translated from brk (src/kernel/src/user/syscalls/mod.rs lines 213-253)
together with UserProcess::allocate_user_page and UserProcess::unmap_page
(src/kernel/src/user/mod.rs lines 365-401).  The address space is
modelled at page granularity: a map from page number (address / 4096) to
the flags of the leaf entry, if mapped.  Frame identity is not tracked
here; the PMM is modelled separately (allocate_frame) and allocation is
assumed to succeed, since an exhausted PMM panics the kernel via expect
regardless of the argument. -/

structure PageFlags where
  present : Bool
  writable : Bool
  user_accessible : Bool
  no_execute : Bool
deriving DecidableEq, Repr

/-- Flags produced by allocate_user_page when called with NO_EXECUTE:
PRESENT | WRITABLE | USER_ACCESSIBLE | NO_EXECUTE. -/
def nxwu : PageFlags :=
  { present := true, writable := true, user_accessible := true, no_execute := true }

/-- The brk-relevant fields of UserProcess. -/
structure BrkState where
  brk : Nat
  brk_initial : Nat
  mapped : Nat → Option PageFlags

/-- UserProcess::allocate_user_page for one page: map_to with
PRESENT | WRITABLE | USER_ACCESSIBLE | NO_EXECUTE, unwrapped — mapping an
already-mapped page makes map_to fail and the kernel crash (none). -/
def allocate_user_page (mapped : Nat → Option PageFlags) (page : Nat) :
    Option (Nat → Option PageFlags) :=
  match mapped page with
  | some _ => none
  | none => some (fun p => if p = page then some nxwu else mapped p)

/-- UserProcess::unmap_page for one page: mapper.unmap(page).unwrap()
crashes (none) when the page is not mapped. -/
def unmap_page (mapped : Nat → Option PageFlags) (page : Nat) :
    Option (Nat → Option PageFlags) :=
  match mapped page with
  | none => none
  | some _ => some (fun p => if p = page then none else mapped p)

/-- Page::range_inclusive(containing(a*4096..), containing(b*4096..)).skip(1)
on page numbers: the pages a+1, a+2, ..., b (empty when b ≤ a). -/
def pages_after (a b : Nat) : List Nat := List.range' (a + 1) (b - a)

def map_new_pages (mapped : Nat → Option PageFlags) :
    List Nat → Option (Nat → Option PageFlags)
  | [] => some mapped
  | p :: ps =>
    match allocate_user_page mapped p with
    | none => none
    | some m' => map_new_pages m' ps

def unmap_pages (mapped : Nat → Option PageFlags) :
    List Nat → Option (Nat → Option PageFlags)
  | [] => some mapped
  | p :: ps =>
    match unmap_page mapped p with
    | none => none
    | some m' => unmap_pages m' ps

/-- brk (syscalls/mod.rs lines 213-253).  VirtAddr::new(addr) crashes for
a non-canonical address.  If check_addr fails, addr < brk_initial, or
addr is null, the current break is returned and nothing changes.
Otherwise, growing maps the pages strictly after the page containing the
current break up to the page containing addr (skip(1) of the inclusive
range); shrinking unmaps the pages strictly after the page containing the
new break up to the page containing the current break; finally
brk := addr is committed and returned. -/
def brk_syscall (st : BrkState) (addr : Nat) : Option (Nat × BrkState) :=
  if !(canonical addr) then none
  else if !(check_addr addr) || decide (addr < st.brk_initial) || decide (addr = 0) then
    some (st.brk, st)
  else
    (if st.brk < addr then
       map_new_pages st.mapped (pages_after (st.brk / 4096) (addr / 4096))
     else some st.mapped).bind (fun m1 =>
      (if addr < st.brk then
         unmap_pages m1 (pages_after (addr / 4096) (st.brk / 4096))
       else some m1).bind (fun m2 =>
        some (addr, { brk := addr, brk_initial := st.brk_initial, mapped := m2 })))

theorem map_range_spec :
    ∀ (n s : Nat) (m : Nat → Option PageFlags),
      (∀ p, s ≤ p → p < s + n → m p = none) →
      ∃ m', map_new_pages m (List.range' s n) = some m' ∧
        ∀ q, m' q = if s ≤ q ∧ q < s + n then some nxwu else m q := by
  intro n
  induction n with
  | zero =>
    intro s m _
    refine ⟨m, rfl, ?_⟩
    intro q
    rw [if_neg (by omega)]
  | succ k ih =>
    intro s m hm
    have hs : m s = none := hm s (by omega) (by omega)
    have hstep : allocate_user_page m s
        = some (fun p => if p = s then some nxwu else m p) := by
      unfold allocate_user_page
      rw [hs]
    have hrest : ∀ p, s + 1 ≤ p → p < s + 1 + k →
        (fun p => if p = s then some nxwu else m p) p = none := by
      intro p h1 h2
      simp only
      rw [if_neg (by omega)]
      exact hm p (by omega) (by omega)
    obtain ⟨m', heq, hval⟩ := ih (s + 1) _ hrest
    refine ⟨m', ?_, ?_⟩
    · show map_new_pages m (List.range' s (k + 1)) = some m'
      rw [List.range'_succ _ _ 1]
      unfold map_new_pages
      rw [hstep]
      exact heq
    · intro q
      rw [hval q]
      show (if s + 1 ≤ q ∧ q < s + 1 + k then some nxwu
            else if q = s then some nxwu else m q)
          = (if s ≤ q ∧ q < s + (k + 1) then some nxwu else m q)
      by_cases hq : q = s
      · rw [if_neg (show ¬ (s + 1 ≤ q ∧ q < s + 1 + k) by omega), if_pos hq,
            if_pos (show s ≤ q ∧ q < s + (k + 1) by omega)]
      · by_cases hq2 : s + 1 ≤ q ∧ q < s + 1 + k
        · rw [if_pos hq2, if_pos (show s ≤ q ∧ q < s + (k + 1) by omega)]
        · rw [if_neg hq2, if_neg hq,
              if_neg (show ¬ (s ≤ q ∧ q < s + (k + 1)) by omega)]

theorem unmap_range_spec :
    ∀ (n s : Nat) (m : Nat → Option PageFlags),
      (∀ p, s ≤ p → p < s + n → m p ≠ none) →
      ∃ m', unmap_pages m (List.range' s n) = some m' ∧
        ∀ q, m' q = if s ≤ q ∧ q < s + n then none else m q := by
  intro n
  induction n with
  | zero =>
    intro s m _
    refine ⟨m, rfl, ?_⟩
    intro q
    rw [if_neg (by omega)]
  | succ k ih =>
    intro s m hm
    have hs : m s ≠ none := hm s (by omega) (by omega)
    obtain ⟨fl, hfl⟩ : ∃ fl, m s = some fl := by
      cases hms : m s with
      | none => exact absurd hms hs
      | some fl => exact ⟨fl, rfl⟩
    have hstep : unmap_page m s = some (fun p => if p = s then none else m p) := by
      unfold unmap_page
      rw [hfl]
    have hrest : ∀ p, s + 1 ≤ p → p < s + 1 + k →
        (fun p => if p = s then none else m p) p ≠ none := by
      intro p h1 h2
      simp only
      rw [if_neg (by omega)]
      exact hm p (by omega) (by omega)
    obtain ⟨m', heq, hval⟩ := ih (s + 1) _ hrest
    refine ⟨m', ?_, ?_⟩
    · show unmap_pages m (List.range' s (k + 1)) = some m'
      rw [List.range'_succ _ _ 1]
      unfold unmap_pages
      rw [hstep]
      exact heq
    · intro q
      rw [hval q]
      show (if s + 1 ≤ q ∧ q < s + 1 + k then none
            else if q = s then none else m q)
          = (if s ≤ q ∧ q < s + (k + 1) then none else m q)
      by_cases hq : q = s
      · rw [if_neg (show ¬ (s + 1 ≤ q ∧ q < s + 1 + k) by omega), if_pos hq,
            if_pos (show s ≤ q ∧ q < s + (k + 1) by omega)]
      · by_cases hq2 : s + 1 ≤ q ∧ q < s + 1 + k
        · rw [if_pos hq2, if_pos (show s ≤ q ∧ q < s + (k + 1) by omega)]
        · rw [if_neg hq2, if_neg hq,
              if_neg (show ¬ (s ≤ q ∧ q < s + (k + 1)) by omega)]

theorem testBit63_iff (a : Nat) (h : a < 2 ^ 64) :
    a.testBit 63 = true ↔ 2 ^ 63 ≤ a := by
  rw [Nat.testBit_to_div_mod]
  constructor
  · intro hb
    have hb' := of_decide_eq_true hb
    omega
  · intro hge
    have h1 : a / 2 ^ 63 = 1 := by omega
    rw [h1]
    decide

/-- Concrete break state: break at 0x1000 with page 1 mapped, as after an
execve whose image ended at 0x1000. -/
def brkSt0 : BrkState :=
  { brk := 0x1000, brk_initial := 0x1000,
    mapped := fun p => if p = 1 then some nxwu else none }

/-- Claim C2 counterexample: brk at the non-canonical address 2^48 (bit 63
clear, so a userspace address by the kernel's own test, and above any
break).  VirtAddr::new panics, so the syscall neither returns the current
break nor maps anything — it crashes the kernel. -/
theorem brk_noncanonical_counterexample :
    brk_syscall brkSt0 (2 ^ 48) = none ∧
    (brk_syscall brkSt0 (2 ^ 48)).isSome = false := by
  exact ⟨rfl, rfl⟩

/-- Claim C2 (amended): for canonical addresses brk behaves as claimed —
zero, kernel-half, or below-initial addresses return the current break
unchanged; growing maps NX+W+U pages for each page after the one
containing the current break, up to the one containing addr; shrinking
unmaps pages after the one containing addr up to the one containing the
current break; both commit brk := addr and return it.  Non-canonical
addresses crash in VirtAddr::new (brk_noncanonical_counterexample). -/
theorem brk_spec (st : BrkState) (addr : Nat)
    (hcanon : canonical addr = true) :
    ((addr = 0 ∨ 2 ^ 63 ≤ addr ∨ addr < st.brk_initial) →
      brk_syscall st addr = some (st.brk, st)) ∧
    (addr ≠ 0 → addr < 2 ^ 63 → st.brk_initial ≤ addr → st.brk < addr →
      (∀ p ∈ pages_after (st.brk / 4096) (addr / 4096), st.mapped p = none) →
      ∃ st', brk_syscall st addr = some (addr, st') ∧
        st'.brk = addr ∧ st'.brk_initial = st.brk_initial ∧
        ∀ p, st'.mapped p =
          if st.brk / 4096 < p ∧ p ≤ addr / 4096 then some nxwu else st.mapped p) ∧
    (addr ≠ 0 → addr < 2 ^ 63 → st.brk_initial ≤ addr → addr < st.brk →
      (∀ p ∈ pages_after (addr / 4096) (st.brk / 4096), st.mapped p ≠ none) →
      ∃ st', brk_syscall st addr = some (addr, st') ∧
        st'.brk = addr ∧ st'.brk_initial = st.brk_initial ∧
        ∀ p, st'.mapped p =
          if addr / 4096 < p ∧ p ≤ st.brk / 4096 then none else st.mapped p) ∧
    (addr ≠ 0 → addr < 2 ^ 63 → st.brk_initial ≤ addr → addr = st.brk →
      brk_syscall st addr = some (addr, st)) := by
  have h64 : addr < 2 ^ 64 := by
    unfold canonical at hcanon
    simp only [Bool.or_eq_true, Bool.and_eq_true, decide_eq_true_eq] at hcanon
    rcases hcanon with h | ⟨_, h⟩
    · omega
    · exact h
  have hbit : addr.testBit 63 = true ↔ 2 ^ 63 ≤ addr := testBit63_iff addr h64
  refine ⟨?_, ?_, ?_, ?_⟩
  · intro hcase
    have hcond : (!(check_addr addr) || decide (addr < st.brk_initial)
        || decide (addr = 0)) = true := by
      unfold check_addr
      rcases hcase with h | h | h
      · simp [h]
      · simp [hbit.2 h]
      · simp [h]
    unfold brk_syscall
    rw [if_neg (show ¬ ((!canonical addr) = true) by simp [hcanon])]
    rw [if_pos hcond]
  · intro hz hlow hinit hgrow hunmapped
    have hbit' : addr.testBit 63 = false := by
      by_contra hc
      have := hbit.1 (by simpa using hc)
      omega
    have hcond : (!(check_addr addr) || decide (addr < st.brk_initial)
        || decide (addr = 0)) = false := by
      unfold check_addr
      have hnlt : ¬ addr < st.brk_initial := by omega
      simp [hbit', hz, hnlt]
    have hrange : ∀ p, st.brk / 4096 + 1 ≤ p →
        p < st.brk / 4096 + 1 + (addr / 4096 - st.brk / 4096) → st.mapped p = none := by
      intro p h1 h2
      apply hunmapped
      unfold pages_after
      rw [List.mem_range'_1]
      omega
    obtain ⟨m', heq, hval⟩ := map_range_spec (addr / 4096 - st.brk / 4096)
      (st.brk / 4096 + 1) st.mapped hrange
    refine ⟨{ brk := addr, brk_initial := st.brk_initial, mapped := m' }, ?_, rfl, rfl, ?_⟩
    · unfold brk_syscall
      rw [if_neg (show ¬ ((!canonical addr) = true) by simp [hcanon])]
      rw [if_neg (show ¬ ((!(check_addr addr) || decide (addr < st.brk_initial)
          || decide (addr = 0)) = true) by simp [hcond])]
      rw [if_pos hgrow]
      unfold pages_after
      rw [heq]
      simp only [Option.some_bind]
      rw [if_neg (by omega : ¬ addr < st.brk)]
      simp only [Option.some_bind]
    · intro p
      show m' p = _
      rw [hval p]
      have hdiv : st.brk / 4096 ≤ addr / 4096 := Nat.div_le_div_right (le_of_lt hgrow)
      by_cases hp : st.brk / 4096 < p ∧ p ≤ addr / 4096
      · rw [if_pos (by omega), if_pos hp]
      · rw [if_neg (by omega), if_neg hp]
  · intro hz hlow hinit hshrink hmapped
    have hbit' : addr.testBit 63 = false := by
      by_contra hc
      have := hbit.1 (by simpa using hc)
      omega
    have hcond : (!(check_addr addr) || decide (addr < st.brk_initial)
        || decide (addr = 0)) = false := by
      unfold check_addr
      have hnlt : ¬ addr < st.brk_initial := by omega
      simp [hbit', hz, hnlt]
    have hrange : ∀ p, addr / 4096 + 1 ≤ p →
        p < addr / 4096 + 1 + (st.brk / 4096 - addr / 4096) → st.mapped p ≠ none := by
      intro p h1 h2
      apply hmapped
      unfold pages_after
      rw [List.mem_range'_1]
      omega
    obtain ⟨m', heq, hval⟩ := unmap_range_spec (st.brk / 4096 - addr / 4096)
      (addr / 4096 + 1) st.mapped hrange
    refine ⟨{ brk := addr, brk_initial := st.brk_initial, mapped := m' }, ?_, rfl, rfl, ?_⟩
    · unfold brk_syscall
      rw [if_neg (show ¬ ((!canonical addr) = true) by simp [hcanon])]
      rw [if_neg (show ¬ ((!(check_addr addr) || decide (addr < st.brk_initial)
          || decide (addr = 0)) = true) by simp [hcond])]
      rw [if_neg (by omega : ¬ st.brk < addr)]
      simp only [Option.some_bind]
      rw [if_pos hshrink]
      unfold pages_after
      rw [heq]
      simp only [Option.some_bind]
    · intro p
      show m' p = _
      rw [hval p]
      have hdiv : addr / 4096 ≤ st.brk / 4096 := Nat.div_le_div_right (le_of_lt hshrink)
      by_cases hp : addr / 4096 < p ∧ p ≤ st.brk / 4096
      · rw [if_pos (by omega), if_pos hp]
      · rw [if_neg (by omega), if_neg hp]
  · intro hz hlow hinit heq
    have hbit' : addr.testBit 63 = false := by
      by_contra hc
      have := hbit.1 (by simpa using hc)
      omega
    have hcond : (!(check_addr addr) || decide (addr < st.brk_initial)
        || decide (addr = 0)) = false := by
      unfold check_addr
      have hnlt : ¬ addr < st.brk_initial := by omega
      simp [hbit', hz, hnlt]
    unfold brk_syscall
    rw [if_neg (show ¬ ((!canonical addr) = true) by simp [hcanon])]
    rw [if_neg (show ¬ ((!(check_addr addr) || decide (addr < st.brk_initial)
        || decide (addr = 0)) = true) by simp [hcond])]
    rw [if_neg (by omega : ¬ st.brk < addr)]
    simp only [Option.some_bind]
    rw [if_neg (by omega : ¬ addr < st.brk)]
    simp only [Option.some_bind]
    show some (addr, { brk := addr, brk_initial := st.brk_initial, mapped := st.mapped })
        = some (addr, st)
    rw [heq]

/-- Witness for brk_spec: growing the break of brkSt0 from 0x1000 to
0x3000 maps pages 2 and 3 with NX+W+U flags, leaves page 1 and page 5
alone, and returns the new break; brk(0) returns the current break. -/
theorem brk_spec_witness :
    (brk_syscall brkSt0 0x3000).map
        (fun r => (r.1, r.2.brk, r.2.mapped 1, r.2.mapped 2, r.2.mapped 3, r.2.mapped 5))
      = some (0x3000, 0x3000, some nxwu, some nxwu, some nxwu, none) ∧
    brk_syscall brkSt0 0 = some (0x1000, brkSt0) := by
  have h := brk_spec brkSt0 0x3000 (by rfl)
  obtain ⟨st', heq, hbrk, _, hmap⟩ := h.2.1 (by decide) (by decide) (by decide) (by decide)
    (by decide)
  have h0 := (brk_spec brkSt0 0 (by rfl)).1 (Or.inl rfl)
  refine ⟨?_, h0⟩
  rw [heq]
  show some (0x3000, st'.brk, st'.mapped 1, st'.mapped 2, st'.mapped 3, st'.mapped 5)
      = some (0x3000, 0x3000, some nxwu, some nxwu, some nxwu, none)
  rw [hbrk, hmap 1, hmap 2, hmap 3, hmap 5]
  rfl

/-! ## Process loading (execve)

Translated from UserProcess::execve (src/kernel/src/user/mod.rs lines
135-363) and src/kernel/src/user/elf.rs.  The binary is a byte list;
multi-byte fields are read little-endian, as the pointer casts and
from_ne_bytes do on x86_64.  The address space is the page-granularity
map used for brk; clearing the lower 256 top-level page-table entries
unmaps exactly the pages of the lower canonical half (page number
< 2^35).  Frame contents are not modelled; only which pages are mapped
and with which flags. -/

inductive LoadingError where
  | InvalidHeader
deriving DecidableEq, Repr

/-- ProgramHeaderEntry (src/kernel/src/user/elf.rs): seven u64 fields,
56 bytes; segment_type holds p_type in the low 32 bits and p_flags in the
high 32 bits. -/
structure ProgramHeaderEntry where
  segment_type : Nat
  offset : Nat
  virtual_address : Nat
  unused : Nat
  image_size : Nat
  mem_size : Nat
  align : Nat
deriving DecidableEq, Repr

/-- Little-endian u16 read at a byte offset. -/
def le16 (bytes : List Nat) (off : Nat) : Nat :=
  bytes.getD off 0 + 2 ^ 8 * bytes.getD (off + 1) 0

/-- Little-endian u64 read at a byte offset. -/
def le64 (bytes : List Nat) (off : Nat) : Nat :=
  bytes.getD off 0 + 2 ^ 8 * bytes.getD (off + 1) 0 + 2 ^ 16 * bytes.getD (off + 2) 0 +
  2 ^ 24 * bytes.getD (off + 3) 0 + 2 ^ 32 * bytes.getD (off + 4) 0 +
  2 ^ 40 * bytes.getD (off + 5) 0 + 2 ^ 48 * bytes.getD (off + 6) 0 +
  2 ^ 56 * bytes.getD (off + 7) 0

/-- The ELF validation chain of execve (user/mod.rs lines 142-149):
binary[0x0..0x4] != b"\x7fELF" || binary[0x4] != 2 || binary[0x5] != 1
|| binary[0x10] != 2, with short-circuit evaluation; each index crashes
if the binary is shorter (none).  some true = header invalid. -/
def elf_magic_bad (binary : List Nat) : Option Bool :=
  if binary.length < 4 then none
  else if ¬ (binary.getD 0 0 = 0x7f ∧ binary.getD 1 0 = 0x45 ∧
             binary.getD 2 0 = 0x4c ∧ binary.getD 3 0 = 0x46) then some true
  else if binary.length < 5 then none
  else if binary.getD 4 0 ≠ 2 then some true
  else if binary.length < 6 then none
  else if binary.getD 5 0 ≠ 1 then some true
  else if binary.length < 0x11 then none
  else if binary.getD 0x10 0 ≠ 2 then some true
  else some false

/-- Reading one program header: the slice
binary[offset..offset+56] crashes when out of bounds. -/
def parse_pheader (binary : List Nat) (off : Nat) : Option ProgramHeaderEntry :=
  if off + 56 ≤ binary.length then
    some { segment_type := le64 binary off, offset := le64 binary (off + 8),
           virtual_address := le64 binary (off + 16), unused := le64 binary (off + 24),
           image_size := le64 binary (off + 32), mem_size := le64 binary (off + 40),
           align := le64 binary (off + 48) }
  else none

/-- The header table collect (user/mod.rs lines 171-177): headers at
offsets start + size*i for i in 0..n, in order. -/
def parse_pheaders (binary : List Nat) (start size : Nat) : Nat → Option (List ProgramHeaderEntry)
  | 0 => some []
  | n + 1 =>
    (parse_pheaders binary start size n).bind (fun hs =>
      (parse_pheader binary (start + size * n)).map (fun h => hs ++ [h]))

/-- Leaf flags derived from the segment flags (user/mod.rs lines 196-259):
PRESENT, USER_ACCESSIBLE if readable (bit 2), WRITABLE if writable
(bit 1), NO_EXECUTE unless executable (bit 0). -/
def segment_page_flags (h : ProgramHeaderEntry) : PageFlags :=
  { present := true,
    writable := (h.segment_type / 2 ^ 32).testBit 1,
    user_accessible := (h.segment_type / 2 ^ 32).testBit 2,
    no_execute := !((h.segment_type / 2 ^ 32).testBit 0) }

/-- map_to with given flags over a page list; an already-mapped page makes
map_to fail and the expect crash. -/
def map_to_pages (flags : PageFlags) (mapped : Nat → Option PageFlags) :
    List Nat → Option (Nat → Option PageFlags)
  | [] => some mapped
  | p :: ps =>
    match mapped p with
    | some _ => none
    | none => map_to_pages flags (fun q => if q = p then some flags else mapped q) ps

/-- Loading one program header (user/mod.rs lines 180-267): non-PT_LOAD
headers are skipped; the contents slice binary[offset..offset+image_size]
crashes when out of bounds; the page range covers
[vaddr, vaddr+mem_size] inclusive (VirtAddr construction crashes for
non-canonical addresses); every covered page is mapped to a fresh frame
with the segment flags. -/
def load_segment (binary : List Nat) (mapped : Nat → Option PageFlags)
    (h : ProgramHeaderEntry) : Option (Nat → Option PageFlags) :=
  if h.segment_type % 2 ^ 32 ≠ 1 then some mapped
  else if ¬ (h.offset + h.image_size ≤ binary.length) then none
  else if ¬ (canonical h.virtual_address ∧ canonical (h.virtual_address + h.mem_size))
  then none
  else
    map_to_pages (segment_page_flags h) mapped
      (List.range' (h.virtual_address / 4096)
        ((h.virtual_address + h.mem_size) / 4096 - h.virtual_address / 4096 + 1))

def load_segments (binary : List Nat) (mapped : Nat → Option PageFlags) :
    List ProgramHeaderEntry → Option (Nat → Option PageFlags)
  | [] => some mapped
  | h :: hs => (load_segment binary mapped h).bind (fun m' => load_segments binary m' hs)

/-- brk initialisation (user/mod.rs lines 271-277): the maximum of
VirtAddr::new(h.virtual_address) + h.mem_size over ALL parsed program
headers (not only PT_LOAD ones), 0 when there are none; the VirtAddr
arithmetic crashes on non-canonical values. -/
def brk_from_headers : List ProgramHeaderEntry → Option Nat
  | [] => some 0
  | h :: hs =>
    if canonical h.virtual_address ∧ canonical (h.virtual_address + h.mem_size) then
      (brk_from_headers hs).map (fun b => max (h.virtual_address + h.mem_size) b)
    else none

/-- Clearing the lower 256 top-level page-table entries (user/mod.rs
lines 165-168) unmaps exactly the pages of the lower canonical half:
page numbers below 2^47 / 4096 = 2^35. -/
def clear_user (m : Nat → Option PageFlags) : Nat → Option PageFlags :=
  fun p => if p < 2 ^ 35 then none else m p

/-- The brk-and-mapping view of UserProcess mutated by execve. -/
structure ExecState where
  mapped : Nat → Option PageFlags
  brk : Nat
  brk_initial : Nat

/-- UserProcess::execve on the page-map/brk state: validate the ELF
header (failure returns InvalidHeader with the state untouched, since
validation precedes the clear); then clear all user mappings, parse the
program-header table, load PT_LOAD segments, set brk_initial = brk to the
maximum end address over all headers, and build the user stack: the page
at stack top 0x7fff_ffff_0000 plus the four pages below it, all NX+W+U.
Byte writes into frames (segment contents, argv layout) do not change
which pages are mapped and are not modelled. -/
def execve_model (binary : List Nat) (st : ExecState) :
    Option (ExecState × Except LoadingError Unit) :=
  (elf_magic_bad binary).bind (fun bad =>
    if bad then some (st, .error .InvalidHeader)
    else if binary.length < 0x3A then none
    else if le16 binary 0x36 < 56 then some (st, .error .InvalidHeader)
    else
      (parse_pheaders binary (le64 binary 0x20) (le16 binary 0x36)
          (le16 binary 0x38)).bind (fun headers =>
        (load_segments binary (clear_user st.mapped) headers).bind (fun m1 =>
          (brk_from_headers headers).bind (fun bi =>
            (allocate_user_page m1 (0x7fffffff0000 / 4096)).bind (fun m2 =>
              (map_new_pages m2 (List.range' ((0x7fffffff0000 - 0x4000) / 4096) 4)).map
                (fun m3 => ({ mapped := m3, brk := bi, brk_initial := bi }, .ok ())))))))

/-- Process state with user page 5 mapped, standing for a process that
already ran a program. -/
def exSt0 : ExecState :=
  { mapped := fun p => if p = 5 then some nxwu else none,
    brk := 0x6000, brk_initial := 0x6000 }

/-- Claim C4 counterexample: execve of a binary whose magic is wrong
returns InvalidHeader but leaves the previously mapped user page 5
mapped — validation happens before the clear, so the user mappings are
not cleared. -/
theorem execve_invalid_header_counterexample :
    execve_model [0, 0, 0, 0] exSt0 = some (exSt0, .error .InvalidHeader) ∧
    exSt0.mapped 5 = some nxwu ∧
    (exSt0.mapped 5).isSome = true := by
  exact ⟨rfl, rfl, rfl⟩

/-- Claim C4 (amended): execve of a binary failing ELF validation (wrong
magic, class, endianness or type, or a program-header entry size below
56) returns InvalidHeader and leaves the process state — its user
mappings included — exactly as it was; the clear of the lower 256
top-level entries happens only after validation passes. -/
theorem execve_invalid_header_spec (binary : List Nat) (st : ExecState) :
    (elf_magic_bad binary = some true →
      execve_model binary st = some (st, .error .InvalidHeader)) ∧
    (elf_magic_bad binary = some false → ¬ binary.length < 0x3A →
      le16 binary 0x36 < 56 →
      execve_model binary st = some (st, .error .InvalidHeader)) := by
  constructor
  · intro hbad
    unfold execve_model
    rw [hbad]
    rfl
  · intro hok hlen hsize
    unfold execve_model
    rw [hok]
    simp only [Option.some_bind]
    rw [if_neg (show ¬ (false = true) by simp), if_neg hlen, if_pos hsize]

/-- Little-endian byte splits used to build concrete ELF images. -/
def u64le (v : Nat) : List Nat :=
  [v % 2 ^ 8, v / 2 ^ 8 % 2 ^ 8, v / 2 ^ 16 % 2 ^ 8, v / 2 ^ 24 % 2 ^ 8,
   v / 2 ^ 32 % 2 ^ 8, v / 2 ^ 40 % 2 ^ 8, v / 2 ^ 48 % 2 ^ 8, v / 2 ^ 56 % 2 ^ 8]

/-- A well-formed little ELF64 executable: entry 0x1000, program-header
table at 0x40 with two 56-byte entries — a PT_LOAD (type 1, flags RW)
at vaddr 0x1000 with mem_size 0x100 and empty file image, and a PT_NOTE
(type 4) at vaddr 0x500000 with mem_size 0x1000. -/
def binaryC : List Nat :=
  [0x7f, 0x45, 0x4c, 0x46, 2, 1, 1, 0, 0, 0, 0, 0, 0, 0, 0, 0,
   2, 0, 62, 0, 1, 0, 0, 0] ++
  u64le 0x1000 ++ u64le 0x40 ++ u64le 0 ++
  [0, 0, 0, 0, 64, 0, 56, 0, 2, 0, 0, 0, 0, 0, 0, 0] ++
  (u64le (1 + 6 * 2 ^ 32) ++ u64le 0x40 ++ u64le 0x1000 ++ u64le 0 ++
   u64le 0 ++ u64le 0x100 ++ u64le 0x1000) ++
  (u64le 4 ++ u64le 0 ++ u64le 0x500000 ++ u64le 0 ++
   u64le 0 ++ u64le 0x1000 ++ u64le 8)

/-- The same image with its program-header entry size field (offset 0x36)
zeroed, failing the header_size check. -/
def binaryD : List Nat := (binaryC.set 0x36 0).set 0x37 0

/-- Witness for execve_invalid_header_spec: the four-byte binary 0,0,0,0
(wrong magic) and binaryD (entry size 0) both return InvalidHeader and
leave the state with user page 5 still mapped. -/
theorem execve_invalid_header_spec_witness :
    execve_model [0, 0, 0, 0] exSt0 = some (exSt0, .error .InvalidHeader) ∧
    execve_model binaryD exSt0 = some (exSt0, .error .InvalidHeader) := by
  refine ⟨(execve_invalid_header_spec [0, 0, 0, 0] exSt0).1 (by rfl), ?_⟩
  exact (execve_invalid_header_spec binaryD exSt0).2 (by rfl) (by decide) (by decide)

/-- The program headers of binaryC as parsed by the kernel. -/
def headersC : List ProgramHeaderEntry :=
  [{ segment_type := 1 + 6 * 2 ^ 32, offset := 0x40, virtual_address := 0x1000,
     unused := 0, image_size := 0, mem_size := 0x100, align := 0x1000 },
   { segment_type := 4, offset := 0, virtual_address := 0x500000,
     unused := 0, image_size := 0, mem_size := 0x1000, align := 8 }]

/-- Empty address space for a fresh exec. -/
def stC : ExecState := { mapped := fun _ => none, brk := 0, brk_initial := 0 }

/-- Modelled from the spec's words for comparison (claim C7): brk_initial
as the maximum of vaddr + mem_size over the loaded (PT_LOAD) segments
only. -/
def brk_initial_per_spec (headers : List ProgramHeaderEntry) : Nat :=
  ((headers.filter (fun h => h.segment_type % 2 ^ 32 = 1)).map
    (fun h => h.virtual_address + h.mem_size)).foldr max 0

/-- Claim C7 counterexample: executing binaryC succeeds and sets
brk_initial to 0x501000, the maximum over ALL program headers — the
PT_NOTE entry included — although the maximum over the PT_LOAD segments
alone is 0x1100. -/
theorem execve_brk_counterexample :
    parse_pheaders binaryC (le64 binaryC 0x20) (le16 binaryC 0x36)
        (le16 binaryC 0x38) = some headersC ∧
    (execve_model binaryC stC).map (fun r => (r.1.brk_initial, r.1.brk, r.2))
      = some (0x501000, 0x501000, .ok ()) ∧
    brk_initial_per_spec headersC = 0x1100 ∧
    ((0x501000 : Nat) == 0x1100) = false := by
  exact ⟨rfl, rfl, rfl, by decide⟩

/-- Claim C7 (amended): after a successful execve, brk_initial is the
value computed by brk_from_headers — the maximum of vaddr + mem_size over
ALL program headers of the image, not only the PT_LOAD ones — and brk
equals brk_initial. -/
theorem execve_brk_spec (binary : List Nat) (st st' : ExecState)
    (h : execve_model binary st = some (st', .ok ())) :
    st'.brk = st'.brk_initial ∧
    ∃ headers, parse_pheaders binary (le64 binary 0x20) (le16 binary 0x36)
        (le16 binary 0x38) = some headers ∧
      brk_from_headers headers = some st'.brk_initial := by
  unfold execve_model at h
  rw [Option.bind_eq_some] at h
  obtain ⟨bad, hbad, h⟩ := h
  by_cases hb : bad
  · rw [if_pos hb] at h
    simp only [Option.some.injEq, Prod.mk.injEq] at h
    exact absurd h.2 (by simp)
  · rw [if_neg hb] at h
    by_cases hlen : binary.length < 0x3A
    · rw [if_pos hlen] at h
      exact Option.noConfusion h
    · rw [if_neg hlen] at h
      by_cases hsize : le16 binary 0x36 < 56
      · rw [if_pos hsize] at h
        simp only [Option.some.injEq, Prod.mk.injEq] at h
        exact absurd h.2 (by simp)
      · rw [if_neg hsize] at h
        rw [Option.bind_eq_some] at h
        obtain ⟨headers, hheaders, h⟩ := h
        rw [Option.bind_eq_some] at h
        obtain ⟨m1, hm1, h⟩ := h
        rw [Option.bind_eq_some] at h
        obtain ⟨bi, hbi, h⟩ := h
        rw [Option.bind_eq_some] at h
        obtain ⟨m2, hm2, h⟩ := h
        rw [Option.map_eq_some'] at h
        obtain ⟨m3, hm3, h⟩ := h
        have hst : st' = { mapped := m3, brk := bi, brk_initial := bi } := by
          have := congrArg Prod.fst h.symm
          simpa using this
        subst hst
        exact ⟨rfl, headers, hheaders, hbi⟩

/-- Witness for execve_brk_spec at the concrete image binaryC: execve
succeeds and the resulting break equals the initial break. -/
theorem execve_brk_spec_witness :
    (execve_model binaryC stC).map (fun r => decide (r.1.brk = r.1.brk_initial))
      = some true := by
  obtain ⟨st', hst⟩ : ∃ st', execve_model binaryC stC = some (st', .ok ()) := ⟨_, rfl⟩
  have h := execve_brk_spec binaryC stC st' hst
  rw [hst]
  show some (decide (st'.brk = st'.brk_initial)) = some true
  rw [h.1]
  simp

/-! ## Fork of the address space

Translated from UserProcess::fork_page_table (src/kernel/src/user/mod.rs
lines 403-478) and UserProcess::fork (lines 576-606).  Physical memory is
a pair of views keyed by frame number: the page-table stored in a frame
and the raw page contents of a frame (the source reads both through the
physical-offset alias).  Page-table entries carry the PRESENT and
USER_ACCESSIBLE bits, the remaining flag bits (copied wholesale by
set_frame), and the frame address.  Frame allocation from the PMM is
modelled as a fresh counter: allocate_frame (proved correct in
allocate_frame_spec) never returns a frame whose bitmap bit is set, and
every frame backing a live mapping is marked, so a returned frame is
outside every live mapping; the counter realises exactly that
freshness. -/

structure PTE where
  present : Bool
  user : Bool
  rest : Nat
  addr : Nat
deriving DecidableEq, Repr

def zeroPTE : PTE := { present := false, user := false, rest := 0, addr := 0 }

/-- Physical memory: the table decoded from a frame, and the byte
contents of a frame. -/
structure Mem where
  tables : Nat → List PTE
  pages : Nat → List Nat

/-- Result of forking the entries of one page table: the new table, the
newly allocated frames in order, the updated memory and counter. -/
structure ForkRes where
  table : List PTE
  frames : List Nat
  mem : Mem
  ctr : Nat

/-- The entry loop of UserProcess::fork_page_table (lines 427-475), with
the per-level recursion inlined at the recursive entry: a non-present
entry stays zero (the fresh table was zeroed); a user-accessible entry
with (i < 256 || lvl < 4) is deep-copied — above level 1 by allocating a
frame for a new child table (stored into memory once built) and recursing
into the parent's child table, at level 1 by allocating a fresh leaf
frame and copying the page contents byte for byte; any other present
entry is cloned by reference.  i is the absolute entry index, ctr the
allocation counter. -/
def fork_entries (lvl : Nat) (m : Mem) (es : List PTE) (i ctr : Nat) : ForkRes :=
  match es with
  | [] => { table := [], frames := [], mem := m, ctr := ctr }
  | e :: rest =>
    if e.present = false then
      let r := fork_entries lvl m rest (i + 1) ctr
      { r with table := zeroPTE :: r.table }
    else if e.user = true ∧ (i < 256 ∨ lvl < 4) then
      if h1 : 1 < lvl then
        let c := fork_entries (lvl - 1) m (m.tables e.addr) 0 (ctr + 1)
        let m2 : Mem := { tables := fun x => if x = ctr then c.table else c.mem.tables x,
                          pages := c.mem.pages }
        let r := fork_entries lvl m2 rest (i + 1) c.ctr
        { table := { e with addr := ctr } :: r.table,
          frames := ctr :: (c.frames ++ r.frames), mem := r.mem, ctr := r.ctr }
      else
        let m1 : Mem := { tables := m.tables,
                          pages := fun x => if x = ctr then m.pages e.addr else m.pages x }
        let r := fork_entries lvl m1 rest (i + 1) (ctr + 1)
        { table := { e with addr := ctr } :: r.table,
          frames := ctr :: r.frames, mem := r.mem, ctr := r.ctr }
    else
      let r := fork_entries lvl m rest (i + 1) ctr
      { r with table := e :: r.table }
termination_by (lvl, es.length)

/-- UserProcess::fork_page_table at the top: allocate the frame for the
new level-lvl table, fork the 512 entries, store the built table at its
frame.  Returns (table, owned frames, table frame, memory, counter) as
the source returns (dst, frames, frame). -/
def fork_page_table (m : Mem) (src : List PTE) (lvl ctr : Nat) :
    List PTE × List Nat × Nat × Mem × Nat :=
  let r := fork_entries lvl m src 0 (ctr + 1)
  (r.table, ctr :: r.frames, ctr,
   { tables := fun x => if x = ctr then r.table else r.mem.tables x,
     pages := r.mem.pages },
   r.ctr)

/-- Page-table walk through memory: follow the entry at each index,
requiring PRESENT and USER_ACCESSIBLE at every level (the hardware
requirement for a user access), returning the list of entry addresses
along the path; the last element is the leaf frame backing the page. -/
def walk_addrs (m : Mem) : List PTE → List Nat → Option (List Nat)
  | _, [] => some []
  | t, idx :: rest =>
    let e := t.getD idx zeroPTE
    if e.present = true ∧ e.user = true then
      match rest with
      | [] => some [e.addr]
      | _ :: _ => (walk_addrs m (m.tables e.addr) rest).map (fun l => e.addr :: l)
    else none

/-- Writing a page through a mapping: update the contents of its leaf
frame. -/
def write_page (m : Mem) (f : Nat) (v : List Nat) : Mem :=
  { tables := m.tables, pages := fun x => if x = f then v else m.pages x }

/-! ### Unfolding equations for fork_entries, one per branch -/

theorem fork_entries_nil (lvl : Nat) (m : Mem) (i ctr : Nat) :
    fork_entries lvl m [] i ctr = { table := [], frames := [], mem := m, ctr := ctr } := by
  rw [fork_entries]

theorem fork_entries_skip (lvl : Nat) (m : Mem) (e : PTE) (rest : List PTE)
    (i ctr : Nat) (hp : e.present = false) :
    fork_entries lvl m (e :: rest) i ctr =
      { fork_entries lvl m rest (i + 1) ctr with
        table := zeroPTE :: (fork_entries lvl m rest (i + 1) ctr).table } := by
  rw [fork_entries]
  rw [if_pos hp]

theorem fork_entries_clone (lvl : Nat) (m : Mem) (e : PTE) (rest : List PTE)
    (i ctr : Nat) (hp : ¬ e.present = false)
    (hu : ¬ (e.user = true ∧ (i < 256 ∨ lvl < 4))) :
    fork_entries lvl m (e :: rest) i ctr =
      { fork_entries lvl m rest (i + 1) ctr with
        table := e :: (fork_entries lvl m rest (i + 1) ctr).table } := by
  rw [fork_entries]
  rw [if_neg hp, if_neg hu]

theorem fork_entries_table (lvl : Nat) (m : Mem) (e : PTE) (rest : List PTE)
    (i ctr : Nat) (hp : ¬ e.present = false)
    (hu : e.user = true ∧ (i < 256 ∨ lvl < 4)) (h1 : 1 < lvl)
    (c : ForkRes) (hc : c = fork_entries (lvl - 1) m (m.tables e.addr) 0 (ctr + 1))
    (m2 : Mem)
    (hm2 : m2 = { tables := fun x => if x = ctr then c.table else c.mem.tables x,
                  pages := c.mem.pages })
    (r : ForkRes) (hr : r = fork_entries lvl m2 rest (i + 1) c.ctr) :
    fork_entries lvl m (e :: rest) i ctr =
      { table := { e with addr := ctr } :: r.table,
        frames := ctr :: (c.frames ++ r.frames), mem := r.mem, ctr := r.ctr } := by
  subst hc hm2 hr
  rw [fork_entries]
  rw [if_neg hp, if_pos hu, dif_pos h1]

theorem fork_entries_leaf (lvl : Nat) (m : Mem) (e : PTE) (rest : List PTE)
    (i ctr : Nat) (hp : ¬ e.present = false)
    (hu : e.user = true ∧ (i < 256 ∨ lvl < 4)) (h1 : ¬ 1 < lvl)
    (m1 : Mem)
    (hm1 : m1 = { tables := m.tables,
                  pages := fun x => if x = ctr then m.pages e.addr else m.pages x })
    (r : ForkRes) (hr : r = fork_entries lvl m1 rest (i + 1) (ctr + 1)) :
    fork_entries lvl m (e :: rest) i ctr =
      { table := { e with addr := ctr } :: r.table,
        frames := ctr :: r.frames, mem := r.mem, ctr := r.ctr } := by
  subst hm1 hr
  rw [fork_entries]
  rw [if_neg hp, if_pos hu, dif_neg h1]

/-! ### The fork allocates monotonically and only touches fresh frames -/

theorem fork_entries_mono : ∀ lvl es (m : Mem) (i ctr : Nat),
    ctr ≤ (fork_entries lvl m es i ctr).ctr ∧
    ∀ x, x < ctr → (fork_entries lvl m es i ctr).mem.tables x = m.tables x ∧
                   (fork_entries lvl m es i ctr).mem.pages x = m.pages x := by
  intro lvl
  induction lvl using Nat.strong_induction_on with
  | _ lvl ihl =>
  intro es
  induction es with
  | nil =>
    intro m i ctr
    rw [fork_entries_nil]
    exact ⟨le_refl ctr, fun x _ => ⟨rfl, rfl⟩⟩
  | cons e rest ihe =>
    intro m i ctr
    by_cases hp : e.present = false
    · rw [fork_entries_skip lvl m e rest i ctr hp]
      exact ihe m (i + 1) ctr
    · by_cases hu : e.user = true ∧ (i < 256 ∨ lvl < 4)
      · by_cases h1 : 1 < lvl
        · rw [fork_entries_table lvl m e rest i ctr hp hu h1 _ rfl _ rfl _ rfl]
          obtain ⟨hc1, hc2⟩ := ihl (lvl - 1) (by omega) (m.tables e.addr) m 0 (ctr + 1)
          obtain ⟨hr1, hr2⟩ := ihe
            { tables := fun x => if x = ctr
                then (fork_entries (lvl - 1) m (m.tables e.addr) 0 (ctr + 1)).table
                else (fork_entries (lvl - 1) m (m.tables e.addr) 0 (ctr + 1)).mem.tables x,
              pages := (fork_entries (lvl - 1) m (m.tables e.addr) 0 (ctr + 1)).mem.pages }
            (i + 1) (fork_entries (lvl - 1) m (m.tables e.addr) 0 (ctr + 1)).ctr
          constructor
          · show ctr ≤ (fork_entries lvl _ rest (i + 1) _).ctr
            omega
          · intro x hx
            obtain ⟨ht, hpg⟩ := hr2 x (by omega)
            rw [ht, hpg]
            obtain ⟨ht', hpg'⟩ := hc2 x (by omega)
            constructor
            · show (if x = ctr then _ else _) = m.tables x
              rw [if_neg (by omega), ht']
            · exact hpg'
        · rw [fork_entries_leaf lvl m e rest i ctr hp hu h1 _ rfl _ rfl]
          obtain ⟨hr1, hr2⟩ := ihe
            { tables := m.tables,
              pages := fun x => if x = ctr then m.pages e.addr else m.pages x }
            (i + 1) (ctr + 1)
          constructor
          · show ctr ≤ (fork_entries lvl _ rest (i + 1) (ctr + 1)).ctr
            omega
          · intro x hx
            obtain ⟨ht, hpg⟩ := hr2 x (by omega)
            rw [ht, hpg]
            refine ⟨rfl, ?_⟩
            show (if x = ctr then m.pages e.addr else m.pages x) = m.pages x
            rw [if_neg (by omega)]
      · rw [fork_entries_clone lvl m e rest i ctr hp hu]
        exact ihe m (i + 1) ctr

/-! ### Walk facts -/

theorem walk_addrs_nil (m : Mem) (t : List PTE) : walk_addrs m t [] = some [] := rfl

theorem walk_addrs_one (m : Mem) (t : List PTE) (idx : Nat) :
    walk_addrs m t [idx] =
      (if (t.getD idx zeroPTE).present = true ∧ (t.getD idx zeroPTE).user = true
       then some [(t.getD idx zeroPTE).addr] else none) := rfl

theorem walk_addrs_cons (m : Mem) (t : List PTE) (idx j : Nat) (rest : List Nat) :
    walk_addrs m t (idx :: j :: rest) =
      (if (t.getD idx zeroPTE).present = true ∧ (t.getD idx zeroPTE).user = true
       then (walk_addrs m (m.tables (t.getD idx zeroPTE).addr) (j :: rest)).map
              (fun l => (t.getD idx zeroPTE).addr :: l)
       else none) := rfl

theorem walk_addrs_length : ∀ (path : List Nat) (m : Mem) (t : List PTE) addrs,
    walk_addrs m t path = some addrs → addrs.length = path.length := by
  intro path
  induction path with
  | nil =>
    intro m t addrs h
    rw [walk_addrs_nil] at h
    simp only [Option.some.injEq] at h
    rw [← h]
  | cons idx rest ih =>
    intro m t addrs h
    cases rest with
    | nil =>
      rw [walk_addrs_one] at h
      by_cases hcond : (t.getD idx zeroPTE).present = true ∧ (t.getD idx zeroPTE).user = true
      · rw [if_pos hcond] at h
        simp only [Option.some.injEq] at h
        rw [← h]
        rfl
      · rw [if_neg hcond] at h
        exact Option.noConfusion h
    | cons j rest' =>
      rw [walk_addrs_cons] at h
      by_cases hcond : (t.getD idx zeroPTE).present = true ∧ (t.getD idx zeroPTE).user = true
      · rw [if_pos hcond] at h
        rw [Option.map_eq_some'] at h
        obtain ⟨l, hl, hcons⟩ := h
        rw [← hcons]
        simp only [List.length_cons]
        rw [ih m _ l hl]
        rfl
      · rw [if_neg hcond] at h
        exact Option.noConfusion h

theorem walk_addrs_stable : ∀ (path : List Nat) (t : List PTE) (m1 m2 : Mem) addrs,
    walk_addrs m1 t path = some addrs →
    (∀ a ∈ addrs, m2.tables a = m1.tables a) →
    walk_addrs m2 t path = some addrs := by
  intro path
  induction path with
  | nil =>
    intro t m1 m2 addrs h _
    rw [walk_addrs_nil] at h ⊢
    exact h
  | cons idx rest ih =>
    intro t m1 m2 addrs h hag
    cases rest with
    | nil =>
      rw [walk_addrs_one] at h ⊢
      exact h
    | cons j rest' =>
      rw [walk_addrs_cons] at h ⊢
      by_cases hcond : (t.getD idx zeroPTE).present = true ∧ (t.getD idx zeroPTE).user = true
      · rw [if_pos hcond] at h ⊢
        rw [Option.map_eq_some'] at h
        obtain ⟨l, hl, hcons⟩ := h
        have hmem : (t.getD idx zeroPTE).addr ∈ addrs := by
          rw [← hcons]
          exact List.mem_cons_self _ _
        have hsub : ∀ a ∈ l, m2.tables a = m1.tables a := by
          intro a ha
          apply hag
          rw [← hcons]
          exact List.mem_cons_of_mem _ ha
        rw [hag _ hmem]
        rw [ih _ m1 m2 l hl hsub]
        rw [← hcons]
        rfl
      · rw [if_neg hcond] at h
        exact Option.noConfusion h

theorem getLastD_mem : ∀ (l : List Nat) (d : Nat), l ≠ [] → l.getLastD d ∈ l := by
  intro l
  induction l with
  | nil => intro d h; exact absurd rfl h
  | cons a rest ih =>
    intro d _
    rw [List.getLastD_cons]
    match rest with
    | [] => simp
    | b :: rest' => exact List.mem_cons_of_mem a (ih a (by simp))

theorem getLastD_cons_of_ne (a : Nat) (l : List Nat) (d : Nat) (h : l ≠ []) :
    (a :: l).getLastD d = l.getLastD d := by
  rw [List.getLastD_cons]
  match l, h with
  | b :: l', _ =>
    rw [List.getLastD_cons, List.getLastD_cons]

/-- One-step reindexing of a walk whose top index skips the head entry. -/
theorem walk_addrs_getD_succ (m : Mem) (t : List PTE) (e : PTE) (j : Nat)
    (rest : List Nat) :
    walk_addrs m (e :: t) ((j + 1) :: rest) = walk_addrs m t (j :: rest) := by
  cases rest with
  | nil => rw [walk_addrs_one, walk_addrs_one, List.getD_cons_succ]
  | cons b rest' => rw [walk_addrs_cons, walk_addrs_cons, List.getD_cons_succ]

/-- Central lemma: forking the entries of a table reproduces every
user-walkable path.  If a path through the source entries (with absolute
top index i + j under the fork's 256/level condition) reaches a leaf with
all frames on the path below the allocation counter, then the same path
through the forked table reaches a leaf in freshly allocated frames
(all in [ctr, ctr')), whose page contents equal the source leaf's
contents in the pre-fork memory. -/
theorem fork_walk : ∀ lvl, ∀ es (m : Mem) (i ctr j : Nat) (rest : List Nat)
    (addrs : List Nat),
    1 ≤ lvl → lvl ≤ 4 → (j :: rest).length = lvl →
    (i + j < 256 ∨ lvl < 4) →
    walk_addrs m es (j :: rest) = some addrs →
    (∀ a ∈ addrs, a < ctr) →
    ∃ caddrs,
      walk_addrs (fork_entries lvl m es i ctr).mem (fork_entries lvl m es i ctr).table
          (j :: rest) = some caddrs ∧
      caddrs.length = addrs.length ∧
      (∀ a ∈ caddrs, ctr ≤ a ∧ a < (fork_entries lvl m es i ctr).ctr) ∧
      (fork_entries lvl m es i ctr).mem.pages (caddrs.getLastD 0)
        = m.pages (addrs.getLastD 0) := by
  intro lvl
  induction lvl using Nat.strong_induction_on with
  | _ lvl ihl =>
  intro es
  induction es with
  | nil =>
    intro m i ctr j rest addrs h1 h4 hlen hidx hw hb
    exfalso
    have hz : (List.getD ([] : List PTE) j zeroPTE) = zeroPTE := by simp
    cases rest with
    | nil =>
      rw [walk_addrs_one, hz] at hw
      rw [if_neg (by simp [zeroPTE])] at hw
      exact Option.noConfusion hw
    | cons b rest' =>
      rw [walk_addrs_cons, hz] at hw
      rw [if_neg (by simp [zeroPTE])] at hw
      exact Option.noConfusion hw
  | cons e tail ihe =>
    intro m i ctr j rest addrs h1 h4 hlen hidx hw hb
    have haddrs_len : addrs.length = (j :: rest).length := walk_addrs_length _ m _ addrs hw
    have haddrs_ne : addrs ≠ [] := by
      intro hcontra
      rw [hcontra] at haddrs_len
      simp at haddrs_len
    have hleaf_mem : addrs.getLastD 0 ∈ addrs := getLastD_mem addrs 0 haddrs_ne
    have hleaf_lt : addrs.getLastD 0 < ctr := hb _ hleaf_mem
    cases j with
    | succ j' =>
      -- the walked entry is in the tail; the head entry only advances state
      have hwtail : walk_addrs m tail (j' :: rest) = some addrs := by
        rw [← walk_addrs_getD_succ m tail e j' rest]
        exact hw
      have step : ∀ (mh : Mem) (ch : Nat),
          (∀ x, x < ctr → mh.tables x = m.tables x) →
          (∀ x, x < ctr → mh.pages x = m.pages x) →
          ctr ≤ ch →
          ∃ caddrs,
            walk_addrs (fork_entries lvl mh tail (i + 1) ch).mem
                (fork_entries lvl mh tail (i + 1) ch).table (j' :: rest) = some caddrs ∧
            caddrs.length = addrs.length ∧
            (∀ a ∈ caddrs, ch ≤ a ∧ a < (fork_entries lvl mh tail (i + 1) ch).ctr) ∧
            (fork_entries lvl mh tail (i + 1) ch).mem.pages (caddrs.getLastD 0)
              = m.pages (addrs.getLastD 0) := by
        intro mh ch hagt hagp hle
        have hw' : walk_addrs mh tail (j' :: rest) = some addrs :=
          walk_addrs_stable _ _ m mh addrs hwtail (fun a ha => hagt a (hb a ha))
        obtain ⟨caddrs, hwc, hlenc, hbc, hpc⟩ := ihe mh (i + 1) ch j' rest addrs
          h1 h4 (by simpa using hlen) (by omega) hw'
          (fun a ha => lt_of_lt_of_le (hb a ha) hle)
        refine ⟨caddrs, hwc, by rw [hlenc], hbc, ?_⟩
        rw [hpc]
        exact hagp _ hleaf_lt
      by_cases hp : e.present = false
      · rw [fork_entries_skip lvl m e tail i ctr hp]
        obtain ⟨caddrs, hwc, hlenc, hbc, hpc⟩ :=
          step m ctr (fun _ _ => rfl) (fun _ _ => rfl) (le_refl ctr)
        refine ⟨caddrs, ?_, hlenc, hbc, hpc⟩
        show walk_addrs _ (zeroPTE :: _) ((j' + 1) :: rest) = some caddrs
        rw [walk_addrs_getD_succ]
        exact hwc
      · by_cases hu : e.user = true ∧ (i < 256 ∨ lvl < 4)
        · by_cases hlvl : 1 < lvl
          · rw [fork_entries_table lvl m e tail i ctr hp hu hlvl _ rfl _ rfl _ rfl]
            obtain ⟨hcm1, hcm2⟩ := fork_entries_mono (lvl - 1) (m.tables e.addr) m 0 (ctr + 1)
            obtain ⟨caddrs, hwc, hlenc, hbc, hpc⟩ :=
              step { tables := fun x => if x = ctr
                       then (fork_entries (lvl - 1) m (m.tables e.addr) 0 (ctr + 1)).table
                       else (fork_entries (lvl - 1) m (m.tables e.addr) 0 (ctr + 1)).mem.tables x,
                     pages := (fork_entries (lvl - 1) m (m.tables e.addr) 0 (ctr + 1)).mem.pages }
                (fork_entries (lvl - 1) m (m.tables e.addr) 0 (ctr + 1)).ctr
                (fun x hx => by
                  show (if x = ctr then _ else _) = m.tables x
                  rw [if_neg (by omega)]
                  exact (hcm2 x (by omega)).1)
                (fun x hx => (hcm2 x (by omega)).2)
                (by omega)
            refine ⟨caddrs, ?_, hlenc, ?_, hpc⟩
            · show walk_addrs _ ({ e with addr := ctr } :: _) ((j' + 1) :: rest) = some caddrs
              rw [walk_addrs_getD_succ]
              exact hwc
            · intro a ha
              obtain ⟨hb1, hb2⟩ := hbc a ha
              exact ⟨by omega, hb2⟩
          · rw [fork_entries_leaf lvl m e tail i ctr hp hu hlvl _ rfl _ rfl]
            obtain ⟨caddrs, hwc, hlenc, hbc, hpc⟩ :=
              step { tables := m.tables,
                     pages := fun x => if x = ctr then m.pages e.addr else m.pages x }
                (ctr + 1)
                (fun x _ => rfl)
                (fun x hx => by
                  show (if x = ctr then _ else _) = m.pages x
                  rw [if_neg (by omega)])
                (by omega)
            refine ⟨caddrs, ?_, hlenc, ?_, hpc⟩
            · show walk_addrs _ ({ e with addr := ctr } :: _) ((j' + 1) :: rest) = some caddrs
              rw [walk_addrs_getD_succ]
              exact hwc
            · intro a ha
              obtain ⟨hb1, hb2⟩ := hbc a ha
              exact ⟨by omega, hb2⟩
        · rw [fork_entries_clone lvl m e tail i ctr hp hu]
          obtain ⟨caddrs, hwc, hlenc, hbc, hpc⟩ :=
            step m ctr (fun _ _ => rfl) (fun _ _ => rfl) (le_refl ctr)
          refine ⟨caddrs, ?_, hlenc, hbc, hpc⟩
          show walk_addrs _ (e :: _) ((j' + 1) :: rest) = some caddrs
          rw [walk_addrs_getD_succ]
          exact hwc
    | zero =>
      -- the walked entry is the head entry e
      have hgd : (e :: tail).getD 0 zeroPTE = e := rfl
      have hp : ¬ e.present = false := by
        cases rest with
        | nil =>
          rw [walk_addrs_one, hgd] at hw
          intro hcontra
          rw [if_neg (by simp [hcontra])] at hw
          exact Option.noConfusion hw
        | cons b rest' =>
          rw [walk_addrs_cons, hgd] at hw
          intro hcontra
          rw [if_neg (by simp [hcontra])] at hw
          exact Option.noConfusion hw
      have huser : e.user = true := by
        cases rest with
        | nil =>
          rw [walk_addrs_one, hgd] at hw
          by_contra hcontra
          rw [if_neg (by simp [hcontra])] at hw
          exact Option.noConfusion hw
        | cons b rest' =>
          rw [walk_addrs_cons, hgd] at hw
          by_contra hcontra
          rw [if_neg (by simp [hcontra])] at hw
          exact Option.noConfusion hw
      have hu : e.user = true ∧ (i < 256 ∨ lvl < 4) := by
        refine ⟨huser, ?_⟩
        rcases hidx with h | h
        · exact Or.inl (by omega)
        · exact Or.inr h
      have hcondE : e.present = true ∧ e.user = true := ⟨by simpa using hp, huser⟩
      cases rest with
      | nil =>
        -- level 1: the head entry is a leaf, deep-copied into frame ctr
        have hlvl1 : lvl = 1 := by
          have hl := hlen
          simp at hl
          omega
        have hnlt : ¬ 1 < lvl := by omega
        rw [fork_entries_leaf lvl m e tail i ctr hp hu hnlt _ rfl _ rfl]
        have haddr : addrs = [e.addr] := by
          rw [walk_addrs_one, hgd, if_pos hcondE] at hw
          exact (Option.some.inj hw).symm
        obtain ⟨hrm1, hrm2⟩ := fork_entries_mono lvl tail
          { tables := m.tables,
            pages := fun x => if x = ctr then m.pages e.addr else m.pages x }
          (i + 1) (ctr + 1)
        refine ⟨[ctr], ?_, by simp [haddr], ?_, ?_⟩
        · rw [walk_addrs_one]
          have hgd0 : ({ e with addr := ctr } :: (fork_entries lvl
              { tables := m.tables,
                pages := fun x => if x = ctr then m.pages e.addr else m.pages x }
              tail (i + 1) (ctr + 1)).table).getD 0 zeroPTE = { e with addr := ctr } := rfl
          rw [hgd0]
          rw [if_pos (by simpa using hcondE)]
        · intro a ha
          simp only [List.mem_singleton] at ha
          constructor
          · omega
          · show a < (fork_entries lvl
                { tables := m.tables,
                  pages := fun x => if x = ctr then m.pages e.addr else m.pages x }
                tail (i + 1) (ctr + 1)).ctr
            omega
        · show (fork_entries lvl _ tail (i + 1) (ctr + 1)).mem.pages ([ctr].getLastD 0)
              = m.pages (addrs.getLastD 0)
          have h0 : ([ctr] : List Nat).getLastD 0 = ctr := rfl
          rw [h0, (hrm2 ctr (by omega)).2, haddr]
          show (if ctr = ctr then m.pages e.addr else m.pages ctr) = m.pages e.addr
          rw [if_pos rfl]
      | cons b rest' =>
        -- level ≥ 2: recurse into the child table
        have hlvl2 : 2 ≤ lvl := by
          have : (0 :: b :: rest').length = lvl := hlen
          simp at this
          omega
        have hlt : 1 < lvl := by omega
        rw [fork_entries_table lvl m e tail i ctr hp hu hlt _ rfl _ rfl _ rfl]
        have hweq : walk_addrs m (e :: tail) (0 :: b :: rest')
            = (walk_addrs m (m.tables e.addr) (b :: rest')).map (fun l => e.addr :: l) := by
          rw [walk_addrs_cons, hgd, if_pos hcondE]
        rw [hweq, Option.map_eq_some'] at hw
        obtain ⟨l, hl, hleq⟩ := hw
        have hlne : l ≠ [] := by
          intro hcontra
          rw [hcontra] at hl
          have := walk_addrs_length _ m _ [] hl
          simp at this
        have hlbound : ∀ a ∈ l, a < ctr + 1 := by
          intro a ha
          have : a ∈ addrs := by
            rw [← hleq]
            exact List.mem_cons_of_mem _ ha
          exact lt_trans (hb a this) (by omega)
        obtain ⟨cl, hwcl, hlencl, hbcl, hpcl⟩ := ihl (lvl - 1) (by omega)
          (m.tables e.addr) m 0 (ctr + 1) b rest' l
          (by omega) (by omega) (by
            have : (0 :: b :: rest').length = lvl := hlen
            simp at this ⊢
            omega)
          (Or.inr (by omega)) hl hlbound
        have hclne : cl ≠ [] := by
          intro hcontra
          rw [hcontra] at hlencl
          have := walk_addrs_length _ m _ l hl
          rw [← hlencl] at this
          simp at this
        obtain ⟨hcm1, hcm2⟩ := fork_entries_mono (lvl - 1) (m.tables e.addr) m 0 (ctr + 1)
        obtain ⟨hrm1, hrm2⟩ := fork_entries_mono lvl tail
          { tables := fun x => if x = ctr
              then (fork_entries (lvl - 1) m (m.tables e.addr) 0 (ctr + 1)).table
              else (fork_entries (lvl - 1) m (m.tables e.addr) 0 (ctr + 1)).mem.tables x,
            pages := (fork_entries (lvl - 1) m (m.tables e.addr) 0 (ctr + 1)).mem.pages }
          (i + 1) (fork_entries (lvl - 1) m (m.tables e.addr) 0 (ctr + 1)).ctr
        -- transfer the child walk from the child's memory to the final memory
        have hw_m2 : walk_addrs
            { tables := fun x => if x = ctr
                then (fork_entries (lvl - 1) m (m.tables e.addr) 0 (ctr + 1)).table
                else (fork_entries (lvl - 1) m (m.tables e.addr) 0 (ctr + 1)).mem.tables x,
              pages := (fork_entries (lvl - 1) m (m.tables e.addr) 0 (ctr + 1)).mem.pages }
            (fork_entries (lvl - 1) m (m.tables e.addr) 0 (ctr + 1)).table
            (b :: rest') = some cl := by
          apply walk_addrs_stable _ _
            (fork_entries (lvl - 1) m (m.tables e.addr) 0 (ctr + 1)).mem _ cl hwcl
          intro a ha
          show (if a = ctr then _ else _) = _
          rw [if_neg (by
            obtain ⟨ha1, _⟩ := hbcl a ha
            omega)]
        have hw_final : walk_addrs
            (fork_entries lvl
              { tables := fun x => if x = ctr
                  then (fork_entries (lvl - 1) m (m.tables e.addr) 0 (ctr + 1)).table
                  else (fork_entries (lvl - 1) m (m.tables e.addr) 0 (ctr + 1)).mem.tables x,
                pages := (fork_entries (lvl - 1) m (m.tables e.addr) 0 (ctr + 1)).mem.pages }
              tail (i + 1) (fork_entries (lvl - 1) m (m.tables e.addr) 0 (ctr + 1)).ctr).mem
            (fork_entries (lvl - 1) m (m.tables e.addr) 0 (ctr + 1)).table
            (b :: rest') = some cl := by
          apply walk_addrs_stable _ _ _ _ cl hw_m2
          intro a ha
          obtain ⟨ha1, ha2⟩ := hbcl a ha
          exact (hrm2 a ha2).1
        refine ⟨ctr :: cl, ?_, ?_, ?_, ?_⟩
        · rw [walk_addrs_cons]
          have hgd' : ({ e with addr := ctr } :: (fork_entries lvl
              { tables := fun x => if x = ctr
                  then (fork_entries (lvl - 1) m (m.tables e.addr) 0 (ctr + 1)).table
                  else (fork_entries (lvl - 1) m (m.tables e.addr) 0 (ctr + 1)).mem.tables x,
                pages := (fork_entries (lvl - 1) m (m.tables e.addr) 0 (ctr + 1)).mem.pages }
              tail (i + 1)
              (fork_entries (lvl - 1) m (m.tables e.addr) 0 (ctr + 1)).ctr).table).getD 0 zeroPTE
              = { e with addr := ctr } := rfl
          rw [hgd']
          rw [if_pos (by simpa using hcondE)]
          have htab : (fork_entries lvl
              { tables := fun x => if x = ctr
                  then (fork_entries (lvl - 1) m (m.tables e.addr) 0 (ctr + 1)).table
                  else (fork_entries (lvl - 1) m (m.tables e.addr) 0 (ctr + 1)).mem.tables x,
                pages := (fork_entries (lvl - 1) m (m.tables e.addr) 0 (ctr + 1)).mem.pages }
              tail (i + 1) (fork_entries (lvl - 1) m (m.tables e.addr) 0 (ctr + 1)).ctr).mem.tables
              ctr = (fork_entries (lvl - 1) m (m.tables e.addr) 0 (ctr + 1)).table := by
            rw [(hrm2 ctr (by omega)).1]
            show (if ctr = ctr then _ else _) = _
            rw [if_pos rfl]
          show Option.map _ (walk_addrs _ ((fork_entries lvl _ tail (i + 1) _).mem.tables
              ({ e with addr := ctr } : PTE).addr) (b :: rest')) = _
          have : ({ e with addr := ctr } : PTE).addr = ctr := rfl
          rw [this, htab, hw_final]
          rfl
        · rw [← hleq]
          simp only [List.length_cons]
          rw [hlencl]
        · intro a ha
          rcases List.mem_cons.1 ha with ha | ha
          · constructor
            · omega
            · show a < (fork_entries lvl
                  { tables := fun x => if x = ctr
                      then (fork_entries (lvl - 1) m (m.tables e.addr) 0 (ctr + 1)).table
                      else (fork_entries (lvl - 1) m (m.tables e.addr) 0 (ctr + 1)).mem.tables x,
                    pages := (fork_entries (lvl - 1) m (m.tables e.addr) 0 (ctr + 1)).mem.pages }
                  tail (i + 1) (fork_entries (lvl - 1) m (m.tables e.addr) 0 (ctr + 1)).ctr).ctr
              omega
          · obtain ⟨ha1, ha2⟩ := hbcl a ha
            constructor
            · omega
            · show a < (fork_entries lvl
                  { tables := fun x => if x = ctr
                      then (fork_entries (lvl - 1) m (m.tables e.addr) 0 (ctr + 1)).table
                      else (fork_entries (lvl - 1) m (m.tables e.addr) 0 (ctr + 1)).mem.tables x,
                    pages := (fork_entries (lvl - 1) m (m.tables e.addr) 0 (ctr + 1)).mem.pages }
                  tail (i + 1) (fork_entries (lvl - 1) m (m.tables e.addr) 0 (ctr + 1)).ctr).ctr
              omega
        · rw [getLastD_cons_of_ne ctr cl 0 hclne]
          rw [← hleq, getLastD_cons_of_ne e.addr l 0 hlne]
          show (fork_entries lvl _ tail (i + 1) _).mem.pages (cl.getLastD 0) = m.pages (l.getLastD 0)
          have hcl_lt : cl.getLastD 0 < (fork_entries (lvl - 1) m (m.tables e.addr) 0 (ctr + 1)).ctr :=
            (hbcl _ (getLastD_mem cl 0 hclne)).2
          rw [(hrm2 _ hcl_lt).2]
          exact hpcl

theorem walk_addrs_write_page (m : Mem) (f : Nat) (v : List Nat) (t : List PTE)
    (path : List Nat) (addrs : List Nat) (h : walk_addrs m t path = some addrs) :
    walk_addrs (write_page m f v) t path = some addrs :=
  walk_addrs_stable path t m (write_page m f v) addrs h (fun _ _ => rfl)

/-- Claim C1: forking at the top level (four page-table levels, lower 256
entries) deep-copies every user page.  For every user-walkable page of
the parent (top index below 256, every frame on the path allocated below
the counter), the child maps the same page to a freshly allocated leaf
frame holding identical contents, the parent's own mapping and contents
are untouched, the two leaf frames are distinct, and a write through
either mapping leaves the page seen through the other unchanged. -/
theorem fork_deep_copy (m : Mem) (src : List PTE) (c i4 i3 i2 i1 : Nat)
    (addrs : List Nat) (dst : List PTE) (frames : List Nat) (f : Nat)
    (mem' : Mem) (ctr' : Nat)
    (h4 : i4 < 256)
    (hw : walk_addrs m src [i4, i3, i2, i1] = some addrs)
    (hb : ∀ a ∈ addrs, a < c)
    (hfork : fork_page_table m src 4 c = (dst, frames, f, mem', ctr')) :
    ∃ caddrs,
      walk_addrs mem' dst [i4, i3, i2, i1] = some caddrs ∧
      mem'.pages (caddrs.getLastD 0) = m.pages (addrs.getLastD 0) ∧
      walk_addrs mem' src [i4, i3, i2, i1] = some addrs ∧
      mem'.pages (addrs.getLastD 0) = m.pages (addrs.getLastD 0) ∧
      caddrs.getLastD 0 ≠ addrs.getLastD 0 ∧
      (∀ v, (write_page mem' (addrs.getLastD 0) v).pages (caddrs.getLastD 0)
          = mem'.pages (caddrs.getLastD 0) ∧
        walk_addrs (write_page mem' (addrs.getLastD 0) v) dst [i4, i3, i2, i1]
          = some caddrs) ∧
      (∀ v, (write_page mem' (caddrs.getLastD 0) v).pages (addrs.getLastD 0)
          = mem'.pages (addrs.getLastD 0) ∧
        walk_addrs (write_page mem' (caddrs.getLastD 0) v) src [i4, i3, i2, i1]
          = some addrs) := by
  unfold fork_page_table at hfork
  simp only [Prod.mk.injEq] at hfork
  obtain ⟨hdst, hframes, hf, hmem, hctr⟩ := hfork
  have haddrs_len : addrs.length = 4 := walk_addrs_length _ m _ addrs hw
  have haddrs_ne : addrs ≠ [] := by
    intro hcontra
    rw [hcontra] at haddrs_len
    simp at haddrs_len
  have hleaf_lt : addrs.getLastD 0 < c := hb _ (getLastD_mem addrs 0 haddrs_ne)
  obtain ⟨caddrs, hwc, hlenc, hbc, hpc⟩ := fork_walk 4 src m 0 (c + 1) i4 [i3, i2, i1]
    addrs (by omega) (by omega) rfl (Or.inl (by omega)) hw
    (fun a ha => by have := hb a ha; omega)
  have hcaddrs_ne : caddrs ≠ [] := by
    intro hcontra
    rw [hcontra] at hlenc
    rw [haddrs_len] at hlenc
    simp at hlenc
  have hcleaf : caddrs.getLastD 0 ∈ caddrs := getLastD_mem caddrs 0 hcaddrs_ne
  obtain ⟨hcleaf_ge, hcleaf_lt⟩ := hbc _ hcleaf
  obtain ⟨hmono1, hmono2⟩ := fork_entries_mono 4 src m 0 (c + 1)
  -- the final memory agrees with the entry-fork memory except at the new root frame c
  have hmem_tables : ∀ a, a ≠ c →
      mem'.tables a = (fork_entries 4 m src 0 (c + 1)).mem.tables a := by
    intro a ha
    rw [← hmem]
    show (if a = c then _ else _) = _
    rw [if_neg ha]
  have hmem_pages : mem'.pages = (fork_entries 4 m src 0 (c + 1)).mem.pages := by
    rw [← hmem]
  -- child walk in the final memory
  have hwc' : walk_addrs mem' dst [i4, i3, i2, i1] = some caddrs := by
    rw [← hdst]
    apply walk_addrs_stable _ _ (fork_entries 4 m src 0 (c + 1)).mem mem' caddrs hwc
    intro a ha
    obtain ⟨ha1, _⟩ := hbc a ha
    exact hmem_tables a (by omega)
  -- parent walk in the final memory
  have hwp' : walk_addrs mem' src [i4, i3, i2, i1] = some addrs := by
    apply walk_addrs_stable _ _ m mem' addrs hw
    intro a ha
    have halt : a < c := hb a ha
    rw [hmem_tables a (by omega)]
    exact (hmono2 a (by omega)).1
  have hne : caddrs.getLastD 0 ≠ addrs.getLastD 0 := by omega
  refine ⟨caddrs, hwc', ?_, hwp', ?_, hne, ?_, ?_⟩
  · rw [hmem_pages]
    exact hpc
  · rw [hmem_pages]
    exact (hmono2 _ (by omega)).2
  · intro v
    constructor
    · show (if caddrs.getLastD 0 = addrs.getLastD 0 then v
            else mem'.pages (caddrs.getLastD 0)) = mem'.pages (caddrs.getLastD 0)
      rw [if_neg hne]
    · exact walk_addrs_write_page mem' _ v dst _ caddrs hwc'
  · intro v
    constructor
    · show (if addrs.getLastD 0 = caddrs.getLastD 0 then v
            else mem'.pages (addrs.getLastD 0)) = mem'.pages (addrs.getLastD 0)
      rw [if_neg (Ne.symm hne)]
    · exact walk_addrs_write_page mem' _ v src _ addrs hwp'

/-- Concrete parent: one user page at path (0,0,0,0), table frames 10-12,
leaf frame 13 holding the byte 0xAA = 170. -/
def srcW : List PTE := [{ present := true, user := true, rest := 0, addr := 10 }]

def memW : Mem :=
  { tables := fun n =>
      if n = 10 then [{ present := true, user := true, rest := 0, addr := 11 }]
      else if n = 11 then [{ present := true, user := true, rest := 0, addr := 12 }]
      else if n = 12 then [{ present := true, user := true, rest := 0, addr := 13 }]
      else [],
    pages := fun n => if n = 13 then [170] else [] }

/-- Witness for fork_deep_copy at the concrete parent: the fork leaves
the parent's walk at frames 10-13 intact and the parent's leaf still
holds the byte 170 after the fork. -/
theorem fork_deep_copy_witness :
    walk_addrs (fork_page_table memW srcW 4 20).2.2.2.1 srcW [0, 0, 0, 0]
      = some [10, 11, 12, 13] ∧
    (fork_page_table memW srcW 4 20).2.2.2.1.pages 13 = [170] := by
  obtain ⟨caddrs, h1, h2, h3, h4, h5, h6, h7⟩ :=
    fork_deep_copy memW srcW 20 0 0 0 0 [10, 11, 12, 13]
      (fork_page_table memW srcW 4 20).1 (fork_page_table memW srcW 4 20).2.1
      (fork_page_table memW srcW 4 20).2.2.1 (fork_page_table memW srcW 4 20).2.2.2.1
      (fork_page_table memW srcW 4 20).2.2.2.2
      (by decide) (by rfl) (by decide) rfl
  have e2 : ([10, 11, 12, 13] : List Nat).getLastD 0 = 13 := rfl
  have hparent : memW.pages 13 = [170] := rfl
  rw [e2, hparent] at h4
  exact ⟨h3, h4⟩

end Benchix
